import Mathlib

/-!
Word-error-rate scoring of `src/App.js`.

Shallow embedding of the two pure functions of `AudioTypingTest`:

* `normalizeText` (App.js 124-126), the chain
  `s.replace(/[^\w\s']/g, " ").replace(/\s+/g, " ").trim().toLowerCase()`;
* `computeWER` (App.js 128-144), the dynamic-programming edit distance over the
  tokens of two texts and the error rate derived from it;
* `finishTest` (App.js 115-122), which feeds two normalized texts to `computeWER`.

A JavaScript string is modelled as the list of its UTF-16 code units, which is what a
regular expression without the `u` flag, `split`, `trim` and `length` operate on. The
counts `edits` and `N` are natural numbers; the Number `wer` is the value of an IEEE-754
double, the quotient `edits / N` being rounded as the double division rounds it.
-/

namespace Speech2Text

/-- A JavaScript string: its sequence of UTF-16 code units. -/
abbrev JSString := List Nat

/-- UTF-16 code units of one code point. -/
def charUnits (c : Char) : List Nat :=
  if c.toNat < 65536 then [c.toNat]
  else [55296 + (c.toNat - 65536) / 1024, 56320 + (c.toNat - 65536) % 1024]

/-- The JavaScript string written by a literal. -/
def js (s : String) : JSString :=
  s.toList.flatMap charUnits

/-- The class `\w` of a regular expression without the `u` and `i` flags: `[A-Za-z0-9_]`. -/
def isWordChar (c : Nat) : Bool :=
  (48 ≤ c && c ≤ 57) || (65 ≤ c && c ≤ 90) || c == 95 || (97 ≤ c && c ≤ 122)

/-- The class `\s`, which is also what `trim` strips: ECMAScript WhiteSpace and
LineTerminator code units (TAB, LF, VT, FF, CR, SP, NBSP, U+1680, U+2000..U+200A,
U+2028, U+2029, U+202F, U+205F, U+3000, U+FEFF). -/
def isWhiteSpace (c : Nat) : Bool :=
  (9 ≤ c && c ≤ 13) || c == 32 || c == 160 || c == 5760 || (8192 ≤ c && c ≤ 8202) ||
  c == 8232 || c == 8233 || c == 8239 || c == 8287 || c == 12288 || c == 65279

/-- The class `[^\w\s']` of the first replacement. -/
def isReplaced (c : Nat) : Bool :=
  !(isWordChar c || isWhiteSpace c || c == 39)

/-- `s.replace(/[^\w\s']/g, " ")`: every code unit of the class becomes a space. -/
def replacePunct (s : JSString) : JSString :=
  s.map fun c => if isReplaced c then 32 else c

/-- `s.replace(/\s+/g, " ")`: every maximal run of whitespace becomes one space. A
whitespace unit followed by another one is dropped, the last of a run yields the space. -/
def collapseWs : JSString → JSString
  | [] => []
  | [c] => if isWhiteSpace c then [32] else [c]
  | c :: d :: cs =>
    if isWhiteSpace c then
      if isWhiteSpace d then collapseWs (d :: cs) else 32 :: collapseWs (d :: cs)
    else c :: collapseWs (d :: cs)

/-- `s.trim()`: leading and trailing whitespace removed. -/
def trim (s : JSString) : JSString :=
  ((s.dropWhile isWhiteSpace).reverse.dropWhile isWhiteSpace).reverse

/-- Lower case of one code unit: `A`..`Z` go to `a`..`z`. -/
def lowerUnit (c : Nat) : Nat :=
  if 65 ≤ c ∧ c ≤ 90 then c + 32 else c

/-- `s.toLowerCase()` on the code units that can reach it in `normalizeText`: the
two replacements leave only `[A-Za-z0-9_']` and the space (see
`toLowerCase_input_ascii`), on which lowercasing maps `A`..`Z` to `a`..`z` and fixes
the rest. Code units outside ASCII are left as they are. -/
def toLowerCase (s : JSString) : JSString :=
  s.map lowerUnit

/-- `normalizeText` of App.js 124-126. -/
def normalizeText (s : JSString) : JSString :=
  toLowerCase (trim (collapseWs (replacePunct s)))

/-- `s.split(" ")`: the pieces between the spaces, empty pieces included; the empty
string gives one empty piece. -/
def split : JSString → List JSString
  | [] => [[]]
  | c :: cs =>
    if c = 32 then [] :: split cs
    else
      match split cs with
      | [] => [[c]]
      | t :: ts => (c :: t) :: ts

/-- The token array of `computeWER`: `text.length === 0 ? [] : text.split(" ")`. -/
def tokens (text : JSString) : List JSString :=
  if text.length = 0 then [] else split text

/-- `for (let i = lo; i <= hi; i++) body`, threading the state. -/
def forLoop {σ : Type} (lo hi : Nat) (body : Nat → σ → σ) (s : σ) : σ :=
  (List.range' lo (hi + 1 - lo)).foldl (fun s i => body i s) s

/-- The read `dp[i][j]`. Every read of `computeWER` is inside the table (`i` is at most
`r.length`, `j` at most `h.length`), so the default values are never returned. -/
def get2 (dp : List (List Nat)) (i j : Nat) : Nat :=
  (dp.getD i []).getD j 0

/-- The write `dp[i][j] = v`. -/
def set2 (dp : List (List Nat)) (i j v : Nat) : List (List Nat) :=
  dp.set i ((dp.getD i []).set j v)

/-- The body of the inner loop of `computeWER` (App.js 137-138). -/
def cellStep (r h : List JSString) (i j : Nat) (dp : List (List Nat)) : List (List Nat) :=
  if r[i - 1]? = h[j - 1]? then set2 dp i j (get2 dp (i - 1) (j - 1))
  else set2 dp i j
    (min (min (get2 dp (i - 1) j + 1) (get2 dp i (j - 1) + 1)) (get2 dp (i - 1) (j - 1) + 1))

/-- The table `dp` of `computeWER` after its four loops (App.js 132-140). -/
def fillTable (r h : List JSString) : List (List Nat) :=
  let dp := List.replicate (r.length + 1) (List.replicate (h.length + 1) 0)
  let dp := forLoop 0 r.length (fun i dp => set2 dp i 0 i) dp
  let dp := forLoop 0 h.length (fun j dp => set2 dp 0 j j) dp
  forLoop 1 r.length (fun i dp => forLoop 1 h.length (fun j dp => cellStep r h i j dp) dp) dp

/-- Position of the highest set bit of `n`, by halving at most `fuel` times. -/
def floorLog2Aux : Nat → Nat → Nat
  | 0, _ => 0
  | fuel + 1, n => if n < 2 then 0 else floorLog2Aux fuel (n / 2) + 1

/-- Position of the highest set bit of `n`: `2 ^ floorLog2 n ≤ n < 2 ^ (floorLog2 n + 1)`
for `n ≠ 0`. -/
def floorLog2 (n : Nat) : Nat :=
  floorLog2Aux n n

/-- The integer nearest to `n / d`, a tie going to the even one. -/
def roundQuot (n d : Nat) : Nat :=
  let q := n / d
  let r := n % d
  if 2 * r < d then q
  else if d < 2 * r then q + 1
  else if q % 2 = 0 then q else q + 1

/-- The power of two by which `a / b` is scaled so that the scaled quotient
`a * 2 ^ divScale a b / (b * 2 ^ floorLog2 a)` lies between `2 ^ 52` and `2 ^ 53`. -/
def divScale (a b : Nat) : Nat :=
  if b * 2 ^ (floorLog2 a + 52) ≤ a * 2 ^ (floorLog2 b + 52) then floorLog2 b + 52
  else floorLog2 b + 53

/-- The 53-bit significand of the quotient: the scaled quotient rounded to the nearest
integer, ties to even. -/
def divSignificand (a b : Nat) : Nat :=
  roundQuot (a * 2 ^ divScale a b) (b * 2 ^ floorLog2 a)

/-- The JavaScript quotient `a / b` of two Numbers that hold the natural numbers `a` and
`b`, `b` not 0: IEEE-754 binary64 division, which is the exact quotient rounded to a
53-bit significand, to nearest, ties to even. The result is given by its value, a
rational. The counts of `computeWER` are below `2 ^ 53` (a string has fewer code
units), so both operands are exact and a quotient other than 0 lies between `2 ^ -53`
and `2 ^ 53`, inside the normal range; the exponent is therefore left unbounded. -/
def divDouble (a b : Nat) : ℚ :=
  if a = 0 then 0
  else (divSignificand a b : ℚ) * 2 ^ floorLog2 a / 2 ^ divScale a b

/-- The object `{ edits, N, wer }` returned by `computeWER`. The Number `wer` is given
by its value. -/
structure WERResult where
  edits : Nat
  N : Nat
  wer : ℚ

/-- `computeWER` of App.js 128-144. The quotient `edits / N` of line 142 is the
double division `divDouble`. -/
def computeWER (refText hypText : JSString) : WERResult :=
  let r := tokens refText
  let h := tokens hypText
  let N := r.length
  let dp := fillTable r h
  let edits := get2 dp r.length h.length
  let wer : ℚ := if N = 0 then (if h.length = 0 then 0 else 1) else divDouble edits N
  { edits := edits, N := N, wer := wer }

/-- The scoring part of `finishTest` (App.js 118-120): both texts are normalized, then
scored; the result is what `setResult` receives. The two state variables always hold
strings, so the guards `referenceTranscript || ""` and `userText || ""` leave them
as they are. -/
def finishTest (referenceTranscript userText : JSString) : WERResult :=
  computeWER (normalizeText referenceTranscript) (normalizeText userText)

section EditDistance

variable {α : Type} [DecidableEq α]

/-- The recurrence of the table of `computeWER` (App.js 133-138) read as a recursive
function of two sequences, first elements peeled. -/
def lev : List α → List α → Nat
  | [], ys => ys.length
  | x :: xs, [] => (x :: xs).length
  | x :: xs, y :: ys =>
    if x = y then lev xs ys
    else min (min (lev xs (y :: ys) + 1) (lev (x :: xs) ys + 1)) (lev xs ys + 1)
termination_by xs ys => xs.length + ys.length

/-- One single-token edit of a sequence: an insertion, a deletion, or the substitution
of a token by a different one, at any position. -/
inductive EditStep : List α → List α → Prop
  | insertion (pre suf : List α) (x : α) : EditStep (pre ++ suf) (pre ++ x :: suf)
  | deletion (pre suf : List α) (x : α) : EditStep (pre ++ x :: suf) (pre ++ suf)
  | substitution (pre suf : List α) (x y : α) (hxy : x ≠ y) :
      EditStep (pre ++ x :: suf) (pre ++ y :: suf)

/-- `EditSeq a b n`: a sequence of exactly `n` single-token edits turns `a` into `b`. -/
inductive EditSeq : List α → List α → Nat → Prop
  | done (a : List α) : EditSeq a a 0
  | step {a b c : List α} {n : Nat} (hstep : EditStep a b) (hrest : EditSeq b c n) :
      EditSeq a c (n + 1)

/-- `Align a b n`: a left-to-right alignment of `a` with `b` of cost `n`, where matched
equal tokens are free and every other column costs one. -/
inductive Align : List α → List α → Nat → Prop
  | nil : Align [] [] 0
  | keep (a : α) {xs ys : List α} {n : Nat} (h : Align xs ys n) : Align (a :: xs) (a :: ys) n
  | sub (a b : α) {xs ys : List α} {n : Nat} (h : Align xs ys n) :
      Align (a :: xs) (b :: ys) (n + 1)
  | del (a : α) {xs ys : List α} {n : Nat} (h : Align xs ys n) : Align (a :: xs) ys (n + 1)
  | ins (b : α) {xs ys : List α} {n : Nat} (h : Align xs ys n) : Align xs (b :: ys) (n + 1)

end EditDistance

/-- The table has `n + 1` rows of `m + 1` cells. -/
def Shape (n m : Nat) (dp : List (List Nat)) : Prop :=
  dp.length = n + 1 ∧ ∀ i, i ≤ n → (dp.getD i []).length = m + 1

/-- What cell `(i, j)` of the table is meant to hold: the distance between the first
`i` reference tokens and the first `j` hypothesis tokens (read from their last token). -/
def cellSpec (r h : List JSString) (i j : Nat) : Nat :=
  lev (r.take i).reverse (h.take j).reverse

/-- Invariant of the nested loops at the moment cell `(i0, j0)` is about to be written:
the table has its shape and every cell of row 0, of column 0, of a row before `i0`, or
of row `i0` before column `j0` holds its distance. -/
def TableInv (r h : List JSString) (i0 j0 : Nat) (dp : List (List Nat)) : Prop :=
  Shape r.length h.length dp ∧
  ∀ i j, i ≤ r.length → j ≤ h.length →
    (i = 0 ∨ j = 0 ∨ i < i0 ∨ (i = i0 ∧ j < j0)) → get2 dp i j = cellSpec r h i j

/-- Code units a normalized text is made of: digits, underscore, lower-case letters,
the apostrophe and the space. -/
def isNormUnit (c : Nat) : Bool :=
  (48 ≤ c && c ≤ 57) || c == 95 || (97 ≤ c && c ≤ 122) || c == 39 || c == 32

/-- Canonical texts: only normalized code units, no two spaces in a row, no space at
either end. -/
structure IsNormalized (v : JSString) : Prop where
  units : ∀ c ∈ v, isNormUnit c = true
  noDouble : List.Chain' (fun a b => ¬(a = 32 ∧ b = 32)) v
  noLead : v.head? ≠ some 32
  noTrail : v.getLast? ≠ some 32

/-- What `normalizeText` makes of one code unit before spaces are collapsed and
trimmed: the space for a replaced unit, the lower case of a kept one. -/
def canonUnit (c : Nat) : Nat :=
  lowerUnit (if isReplaced c then 32 else c)

/-- Other-case form of an ASCII letter (`a`..`z` and `A`..`Z` swapped); no entry for
any other code unit. -/
def asciiOtherCase (c : Nat) : Option Nat :=
  if 97 ≤ c ∧ c ≤ 122 then some (c - 32)
  else if 65 ≤ c ∧ c ≤ 90 then some (c + 32)
  else none

/-- Other-case form of a letter as `toUpperCase` and `toLowerCase` give it, listed for
the ASCII letters and for the three letters outside ASCII whose other-case form is an
ASCII letter: dotless i U+0131 (upper case `I`), long s U+017F (upper case `S`) and the
Kelvin sign U+212A (lower case `k`). -/
def otherCase (c : Nat) : Option Nat :=
  if c = 305 then some 73
  else if c = 383 then some 83
  else if c = 8490 then some 107
  else asciiOtherCase c

/-- `CaseOrPunctVariant oc c d`: unit `d` stands where unit `c` stood, and is `c` itself,
the other-case form of the letter `c` according to `oc`, or a space put for the
punctuation unit `c` (a unit of the class `[^\w\s']`). -/
def CaseOrPunctVariant (oc : Nat → Option Nat) (c d : Nat) : Prop :=
  c = d ∨ oc c = some d ∨ (isReplaced c = true ∧ d = 32)

/-- `OneTokenEdit r h`: the hypothesis tokens `h` are the reference tokens `r` with one
token substituted by a different token, or with one token inserted. -/
def OneTokenEdit (r h : List JSString) : Prop :=
  (∃ pre suf x y, x ≠ y ∧ r = pre ++ x :: suf ∧ h = pre ++ y :: suf) ∨
  (∃ pre suf y, r = pre ++ suf ∧ h = pre ++ y :: suf)
/-! ## Edit distance of two sequences -/

section EditDistanceTheory

variable {α : Type} [DecidableEq α]

omit [DecidableEq α] in
theorem Align.refl (xs : List α) : Align xs xs 0 := by
  induction xs with
  | nil => exact Align.nil
  | cons a xs ih => exact Align.keep a ih

omit [DecidableEq α] in
theorem Align.nil_left (ys : List α) : Align [] ys ys.length := by
  induction ys with
  | nil => exact Align.nil
  | cons b ys ih => exact Align.ins b ih

omit [DecidableEq α] in
theorem Align.nil_right (xs : List α) : Align xs [] xs.length := by
  induction xs with
  | nil => exact Align.nil
  | cons a xs ih => exact Align.del a ih

omit [DecidableEq α] in
theorem Align.symm {xs ys : List α} {n : Nat} (h : Align xs ys n) : Align ys xs n := by
  induction h with
  | nil => exact Align.nil
  | keep a _ ih => exact Align.keep a ih
  | sub a b _ ih => exact Align.sub b a ih
  | del a _ ih => exact Align.ins a ih
  | ins b _ ih => exact Align.del b ih

omit [DecidableEq α] in
theorem Align.append {xs ys : List α} {n : Nat} (h : Align xs ys n) {xs' ys' : List α}
    {m : Nat} (h' : Align xs' ys' m) : Align (xs ++ xs') (ys ++ ys') (n + m) := by
  induction h with
  | nil => simpa using h'
  | keep a _ ih => exact Align.keep a ih
  | sub a b _ ih =>
    have := Align.sub a b ih
    simpa [Nat.add_right_comm] using this
  | del a _ ih =>
    have := Align.del a ih
    simpa [Nat.add_right_comm] using this
  | ins b _ ih =>
    have := Align.ins b ih
    simpa [Nat.add_right_comm] using this

omit [DecidableEq α] in
theorem Align.reverse {xs ys : List α} {n : Nat} (h : Align xs ys n) :
    Align xs.reverse ys.reverse n := by
  induction h with
  | nil => exact Align.nil
  | keep a _ ih => simpa using ih.append (Align.keep a Align.nil)
  | sub a b _ ih => simpa using ih.append (Align.sub a b Align.nil)
  | del a _ ih => simpa using ih.append (Align.del a Align.nil)
  | ins b _ ih => simpa using ih.append (Align.ins b Align.nil)

omit [DecidableEq α] in
theorem Align.eq_of_zero {xs ys : List α} {n : Nat} (h : Align xs ys n) (hn : n = 0) :
    xs = ys := by
  induction h with
  | nil => rfl
  | keep a _ ih => rw [ih hn]
  | sub a b _ ih => omega
  | del a _ ih => omega
  | ins b _ ih => omega

omit [DecidableEq α] in
/-- Dropping the first token of the target costs at most one more. -/
theorem Align.drop_right {xs ys : List α} {y : α} {n : Nat} (h : Align xs (y :: ys) n) :
    ∃ m, m ≤ n + 1 ∧ Align xs ys m := by
  generalize hzs : y :: ys = zs at h
  induction h generalizing y ys with
  | nil => cases hzs
  | keep a h _ =>
    cases hzs
    exact ⟨_, le_rfl, Align.del a h⟩
  | sub a b h _ =>
    cases hzs
    exact ⟨_, by omega, Align.del a h⟩
  | del a _ ih =>
    obtain ⟨m, hm, hal⟩ := ih hzs
    exact ⟨m + 1, by omega, Align.del a hal⟩
  | ins b h _ =>
    cases hzs
    exact ⟨_, by omega, h⟩

omit [DecidableEq α] in
/-- Dropping the first token of the source costs at most one more. -/
theorem Align.drop_left {xs ys : List α} {x : α} {n : Nat} (h : Align (x :: xs) ys n) :
    ∃ m, m ≤ n + 1 ∧ Align xs ys m := by
  obtain ⟨m, hm, hal⟩ := h.symm.drop_right
  exact ⟨m, hm, hal.symm⟩

theorem lev_align (xs ys : List α) : Align xs ys (lev xs ys) := by
  induction xs, ys using lev.induct with
  | case1 ys => rw [lev]; exact Align.nil_left ys
  | case2 x xs => rw [lev]; exact Align.nil_right (x :: xs)
  | case3 xs y ys ih =>
    rw [lev, if_pos rfl]; exact Align.keep y ih
  | case4 x xs y ys hxy ih1 ih2 ih3 =>
    rw [lev, if_neg hxy]
    rcases Nat.le_total (lev xs (y :: ys) + 1) (lev (x :: xs) ys + 1) with h12 | h12
    · rcases Nat.le_total (lev xs (y :: ys) + 1) (lev xs ys + 1) with h13 | h13
      · rw [min_eq_left h12, min_eq_left h13]; exact Align.del x ih1
      · rw [min_eq_left h12, min_eq_right h13]; exact Align.sub x y ih3
    · rcases Nat.le_total (lev (x :: xs) ys + 1) (lev xs ys + 1) with h23 | h23
      · rw [min_eq_right h12, min_eq_left h23]; exact Align.ins y ih2
      · rw [min_eq_right h12, min_eq_right h23]; exact Align.sub x y ih3

theorem lev_le_of_align : ∀ (k : Nat) (xs ys : List α) (n : Nat),
    xs.length + ys.length ≤ k → Align xs ys n → lev xs ys ≤ n := by
  intro k
  induction k with
  | zero =>
    intro xs ys n hk h
    have hx : xs = [] := List.length_eq_zero.mp (by omega)
    have hy : ys = [] := List.length_eq_zero.mp (by omega)
    subst hx hy
    simp [lev]
  | succ k ih =>
    intro xs ys n hk h
    cases h with
    | nil => simp [lev]
    | keep a h =>
      rw [lev, if_pos rfl]
      exact ih _ _ _ (by simp at hk; omega) h
    | sub a b h =>
      rename_i xs ys n
      have h3 := ih _ _ _ (by simp at hk; omega) h
      rw [lev]
      split
      · omega
      · exact le_trans (min_le_right _ _) (by omega)
    | del a h =>
      rename_i xs n
      cases ys with
      | nil =>
        have := ih _ _ _ (by simp at hk ⊢; omega) h
        cases xs with
        | nil => simp [lev]
        | cons x xs => simp [lev] at this ⊢; omega
      | cons y ys =>
        have h1 := ih _ _ _ (by simp at hk ⊢; omega) h
        rw [lev]
        split
        · obtain ⟨m, hm, hal⟩ := h.drop_right
          have := ih _ _ _ (by simp at hk; omega) hal
          omega
        · exact le_trans (le_trans (min_le_left _ _) (min_le_left _ _)) (by omega)
    | ins b h =>
      rename_i ys n
      cases xs with
      | nil =>
        have := ih _ _ _ (by simp at hk ⊢; omega) h
        simp [lev] at this ⊢; omega
      | cons x xs =>
        have h1 := ih _ _ _ (by simp at hk ⊢; omega) h
        rw [lev]
        split
        · obtain ⟨m, hm, hal⟩ := h.drop_left
          have := ih _ _ _ (by simp at hk; omega) hal
          omega
        · exact le_trans (le_trans (min_le_left _ _) (min_le_right _ _)) (by omega)

omit [DecidableEq α] in
/-- Alignments compose, the costs adding up at most. -/
theorem Align.trans : ∀ (k : Nat) (a b c : List α) (n m : Nat),
    a.length + b.length + c.length ≤ k → Align a b n → Align b c m →
    ∃ p, p ≤ n + m ∧ Align a c p := by
  intro k
  induction k with
  | zero =>
    intro a b c n m hk h1 h2
    have ha : a = [] := List.length_eq_zero.mp (by omega)
    have hb : b = [] := List.length_eq_zero.mp (by omega)
    subst ha hb
    exact ⟨m, by omega, h2⟩
  | succ k ih =>
    intro a b c n m hk h1 h2
    cases h1 with
    | nil => exact ⟨m, by omega, h2⟩
    | del x h1 =>
      obtain ⟨p, hp, hal⟩ := ih _ _ _ _ _ (by simp at hk; omega) h1 h2
      exact ⟨p + 1, by omega, Align.del x hal⟩
    | keep x h1 =>
      cases h2 with
      | keep _ h2 =>
        obtain ⟨p, hp, hal⟩ := ih _ _ _ _ _ (by simp at hk; omega) h1 h2
        exact ⟨p, hp, Align.keep x hal⟩
      | sub _ z h2 =>
        obtain ⟨p, hp, hal⟩ := ih _ _ _ _ _ (by simp at hk; omega) h1 h2
        exact ⟨p + 1, by omega, Align.sub x z hal⟩
      | del _ h2 =>
        obtain ⟨p, hp, hal⟩ := ih _ _ _ _ _ (by simp at hk; omega) h1 h2
        exact ⟨p + 1, by omega, Align.del x hal⟩
      | ins z h2 =>
        obtain ⟨p, hp, hal⟩ := ih _ _ _ _ _ (by simp at hk ⊢; omega) (Align.keep x h1) h2
        exact ⟨p + 1, by omega, Align.ins z hal⟩
    | sub x y h1 =>
      cases h2 with
      | keep _ h2 =>
        obtain ⟨p, hp, hal⟩ := ih _ _ _ _ _ (by simp at hk; omega) h1 h2
        exact ⟨p + 1, by omega, Align.sub x y hal⟩
      | sub _ z h2 =>
        obtain ⟨p, hp, hal⟩ := ih _ _ _ _ _ (by simp at hk; omega) h1 h2
        exact ⟨p + 1, by omega, Align.sub x z hal⟩
      | del _ h2 =>
        obtain ⟨p, hp, hal⟩ := ih _ _ _ _ _ (by simp at hk; omega) h1 h2
        exact ⟨p + 1, by omega, Align.del x hal⟩
      | ins z h2 =>
        obtain ⟨p, hp, hal⟩ := ih _ _ _ _ _ (by simp at hk ⊢; omega) (Align.sub x y h1) h2
        exact ⟨p + 1, by omega, Align.ins z hal⟩
    | ins y h1 =>
      cases h2 with
      | keep _ h2 =>
        obtain ⟨p, hp, hal⟩ := ih _ _ _ _ _ (by simp at hk; omega) h1 h2
        exact ⟨p + 1, by omega, Align.ins y hal⟩
      | sub _ z h2 =>
        obtain ⟨p, hp, hal⟩ := ih _ _ _ _ _ (by simp at hk; omega) h1 h2
        exact ⟨p + 1, by omega, Align.ins z hal⟩
      | del _ h2 =>
        obtain ⟨p, hp, hal⟩ := ih _ _ _ _ _ (by simp at hk; omega) h1 h2
        exact ⟨p, by omega, hal⟩
      | ins z h2 =>
        obtain ⟨p, hp, hal⟩ := ih _ _ _ _ _ (by simp at hk ⊢; omega) (Align.ins y h1) h2
        exact ⟨p + 1, by omega, Align.ins z hal⟩

omit [DecidableEq α] in
theorem editStep_align {a b : List α} (h : EditStep a b) : Align a b 1 := by
  cases h with
  | insertion pre suf x =>
    simpa using (Align.refl pre).append (Align.ins x (Align.refl suf))
  | deletion pre suf x =>
    simpa using (Align.refl pre).append (Align.del x (Align.refl suf))
  | substitution pre suf x y hxy =>
    simpa using (Align.refl pre).append (Align.sub x y (Align.refl suf))

omit [DecidableEq α] in
theorem editSeq_align {a b : List α} {n : Nat} (h : EditSeq a b n) :
    ∃ p, p ≤ n ∧ Align a b p := by
  induction h with
  | done a => exact ⟨0, le_rfl, Align.refl a⟩
  | step hstep _ ih =>
    obtain ⟨p, hp, hal⟩ := ih
    obtain ⟨q, hq, hal'⟩ := Align.trans _ _ _ _ _ _ le_rfl (editStep_align hstep) hal
    exact ⟨q, by omega, hal'⟩

omit [DecidableEq α] in
theorem editStep_cons (x : α) {a b : List α} (h : EditStep a b) :
    EditStep (x :: a) (x :: b) := by
  cases h with
  | insertion pre suf y => exact EditStep.insertion (x :: pre) suf y
  | deletion pre suf y => exact EditStep.deletion (x :: pre) suf y
  | substitution pre suf y z hyz => exact EditStep.substitution (x :: pre) suf y z hyz

omit [DecidableEq α] in
theorem editSeq_cons (x : α) {a b : List α} {n : Nat} (h : EditSeq a b n) :
    EditSeq (x :: a) (x :: b) n := by
  induction h with
  | done a => exact EditSeq.done _
  | step hstep _ ih => exact EditSeq.step (editStep_cons x hstep) ih

theorem Align.editSeq {a b : List α} {n : Nat} (h : Align a b n) :
    ∃ p, p ≤ n ∧ EditSeq a b p := by
  induction h with
  | nil => exact ⟨0, le_rfl, EditSeq.done []⟩
  | keep x _ ih =>
    obtain ⟨p, hp, hs⟩ := ih
    exact ⟨p, hp, editSeq_cons x hs⟩
  | sub x y _ ih =>
    obtain ⟨p, hp, hs⟩ := ih
    by_cases hxy : x = y
    · subst hxy
      exact ⟨p, by omega, editSeq_cons x hs⟩
    · exact ⟨p + 1, by omega,
        EditSeq.step (EditStep.substitution [] _ x y hxy) (editSeq_cons y hs)⟩
  | del x _ ih =>
    obtain ⟨p, hp, hs⟩ := ih
    exact ⟨p + 1, by omega, EditSeq.step (EditStep.deletion [] _ x) hs⟩
  | ins y _ ih =>
    obtain ⟨p, hp, hs⟩ := ih
    exact ⟨p + 1, by omega, EditSeq.step (EditStep.insertion [] _ y) (editSeq_cons y hs)⟩

theorem lev_le_align {xs ys : List α} {n : Nat} (h : Align xs ys n) : lev xs ys ≤ n :=
  lev_le_of_align _ xs ys n le_rfl h

theorem lev_comm (xs ys : List α) : lev xs ys = lev ys xs :=
  le_antisymm (lev_le_align (lev_align ys xs).symm) (lev_le_align (lev_align xs ys).symm)

theorem lev_reverse (xs ys : List α) : lev xs.reverse ys.reverse = lev xs ys := by
  apply le_antisymm
  · exact lev_le_align (lev_align xs ys).reverse
  · have := (lev_align xs.reverse ys.reverse).reverse
    simp only [List.reverse_reverse] at this
    exact lev_le_align this

theorem lev_triangle (xs ys zs : List α) : lev xs zs ≤ lev xs ys + lev ys zs := by
  obtain ⟨p, hp, hal⟩ := Align.trans _ _ _ _ _ _ le_rfl (lev_align xs ys) (lev_align ys zs)
  exact le_trans (lev_le_align hal) hp

theorem lev_self (xs : List α) : lev xs xs = 0 :=
  Nat.le_zero.mp (lev_le_align (Align.refl xs))

theorem lev_eq_zero_iff (xs ys : List α) : lev xs ys = 0 ↔ xs = ys := by
  constructor
  · intro h
    exact (lev_align xs ys).eq_of_zero h
  · rintro rfl
    exact lev_self xs

theorem lev_le_editSeq {xs ys : List α} {n : Nat} (h : EditSeq xs ys n) : lev xs ys ≤ n := by
  obtain ⟨p, hp, hal⟩ := editSeq_align h
  exact le_trans (lev_le_align hal) hp

theorem lev_editSeq (xs ys : List α) : EditSeq xs ys (lev xs ys) := by
  obtain ⟨p, hp, hs⟩ := (lev_align xs ys).editSeq
  have := lev_le_editSeq hs
  have hpe : p = lev xs ys := le_antisymm hp this
  rw [← hpe]
  exact hs

theorem lev_nil_left (ys : List α) : lev [] ys = ys.length := by
  rw [lev]

theorem lev_nil_right (xs : List α) : lev xs [] = xs.length := by
  cases xs <;> simp [lev]

end EditDistanceTheory

/-! ## The table of `computeWER` -/

section Table

theorem foldl_range'_inv {σ : Type} (P : Nat → σ → Prop) (body : Nat → σ → σ) :
    ∀ (k lo : Nat) (s : σ), P lo s →
      (∀ i s, lo ≤ i → i < lo + k → P i s → P (i + 1) (body i s)) →
      P (lo + k) ((List.range' lo k).foldl (fun s i => body i s) s) := by
  intro k
  induction k with
  | zero => intro lo s h0 _; simpa using h0
  | succ k ih =>
    intro lo s h0 hstep
    rw [List.range'_succ, List.foldl_cons]
    have := ih (lo + 1) (body lo s) (hstep lo s le_rfl (by omega) h0)
      (fun i s hlo hhi hP => hstep i s (by omega) (by omega) hP)
    have e : lo + 1 + k = lo + (k + 1) := by omega
    rw [e] at this
    exact this

/-- Invariant rule of the counted loop. -/
theorem forLoop_inv {σ : Type} (P : Nat → σ → Prop) (lo hi : Nat) (body : Nat → σ → σ)
    (s : σ) (hle : lo ≤ hi + 1) (h0 : P lo s)
    (hstep : ∀ i s, lo ≤ i → i ≤ hi → P i s → P (i + 1) (body i s)) :
    P (hi + 1) (forLoop lo hi body s) := by
  have := foldl_range'_inv P body (hi + 1 - lo) lo s h0
    (fun i s hlo hhi hP => hstep i s hlo (by omega) hP)
  have e : lo + (hi + 1 - lo) = hi + 1 := by omega
  rw [e] at this
  exact this

theorem shape_replicate (n m : Nat) :
    Shape n m (List.replicate (n + 1) (List.replicate (m + 1) 0)) := by
  refine ⟨by simp, fun i hi => ?_⟩
  simp [List.getD_eq_getElem?_getD, List.getElem?_replicate, Nat.lt_succ_of_le hi]

theorem set2_shape {n m : Nat} {dp : List (List Nat)} (hs : Shape n m dp) (i j v : Nat) :
    Shape n m (set2 dp i j v) := by
  obtain ⟨hl, hrow⟩ := hs
  refine ⟨by simp [set2, hl], fun i' hi' => ?_⟩
  have := hrow i' hi'
  have hlt : i' < dp.length := by omega
  simp only [set2, List.getD_eq_getElem?_getD, List.getElem?_set] at this ⊢
  by_cases hii : i = i'
  · subst hii
    rw [if_pos rfl, if_pos hlt]
    simpa using this
  · rw [if_neg hii]
    exact this

theorem get2_set2_eq {n m : Nat} {dp : List (List Nat)} (hs : Shape n m dp) {i j : Nat}
    (hi : i ≤ n) (hj : j ≤ m) (v : Nat) : get2 (set2 dp i j v) i j = v := by
  obtain ⟨hl, hrow⟩ := hs
  have := hrow i hi
  have hlt : i < dp.length := by omega
  simp only [get2, set2, List.getD_eq_getElem?_getD, List.getElem?_set] at this ⊢
  rw [if_pos trivial, if_pos hlt]
  have hjl : j < (dp[i]?.getD []).length := by omega
  simp [List.getElem?_set, hjl]

theorem get2_set2_ne (dp : List (List Nat)) {i j i' j' : Nat} (v : Nat)
    (hne : i' ≠ i ∨ j' ≠ j) : get2 (set2 dp i j v) i' j' = get2 dp i' j' := by
  simp only [get2, set2, List.getD_eq_getElem?_getD, List.getElem?_set]
  by_cases hii : i = i'
  · subst hii
    have hjj : j' ≠ j := by
      rcases hne with h | h
      · exact absurd rfl h
      · exact h
    rw [if_pos rfl]
    by_cases hlt : i < dp.length
    · rw [if_pos hlt]
      simp [List.getElem?_set, Ne.symm hjj]
    · rw [if_neg hlt]
      simp [List.getElem?_eq_none (Nat.le_of_not_lt hlt)]
  · rw [if_neg hii]

theorem cellSpec_zero_right (r h : List JSString) {i : Nat} (hi : i ≤ r.length) :
    cellSpec r h i 0 = i := by
  simp [cellSpec, lev_nil_right, hi]

theorem cellSpec_zero_left (r h : List JSString) {j : Nat} (hj : j ≤ h.length) :
    cellSpec r h 0 j = j := by
  simp [cellSpec, lev_nil_left, hj]

theorem take_succ_reverse {α : Type} (l : List α) {i : Nat} (hi : i < l.length) :
    (l.take (i + 1)).reverse = l[i] :: (l.take i).reverse := by
  rw [List.take_succ, List.getElem?_eq_getElem hi]
  simp

theorem cellSpec_succ (r h : List JSString) {i j : Nat} (hi : i < r.length)
    (hj : j < h.length) :
    cellSpec r h (i + 1) (j + 1) =
      if r[i]? = h[j]? then cellSpec r h i j
      else min (min (cellSpec r h i (j + 1) + 1) (cellSpec r h (i + 1) j + 1))
        (cellSpec r h i j + 1) := by
  unfold cellSpec
  rw [take_succ_reverse r hi, take_succ_reverse h hj, lev,
    List.getElem?_eq_getElem hi, List.getElem?_eq_getElem hj]
  simp only [Option.some.injEq]

theorem cellStep_inv (r h : List JSString) {i j : Nat} (hi1 : 1 ≤ i) (hi : i ≤ r.length)
    (hj1 : 1 ≤ j) (hj : j ≤ h.length) {dp : List (List Nat)} (hinv : TableInv r h i j dp) :
    TableInv r h i (j + 1) (cellStep r h i j dp) := by
  obtain ⟨hs, hcells⟩ := hinv
  obtain ⟨i', rfl⟩ : ∃ i', i = i' + 1 := ⟨i - 1, by omega⟩
  obtain ⟨j', rfl⟩ : ∃ j', j = j' + 1 := ⟨j - 1, by omega⟩
  have hd := hcells i' j' (by omega) (by omega) (Or.inr (Or.inr (Or.inl (by omega))))
  have hu := hcells i' (j' + 1) (by omega) hj (Or.inr (Or.inr (Or.inl (by omega))))
  have hl := hcells (i' + 1) j' hi (by omega) (Or.inr (Or.inr (Or.inr ⟨rfl, by omega⟩)))
  have hval : get2 (cellStep r h (i' + 1) (j' + 1) dp) (i' + 1) (j' + 1) =
      cellSpec r h (i' + 1) (j' + 1) := by
    rw [cellSpec_succ r h (by omega) (by omega)]
    unfold cellStep
    simp only [Nat.add_sub_cancel]
    split
    · rw [get2_set2_eq hs hi hj, hd]
    · rw [get2_set2_eq hs hi hj, hd, hu, hl]
  have hother : ∀ a b, (a ≠ i' + 1 ∨ b ≠ j' + 1) →
      get2 (cellStep r h (i' + 1) (j' + 1) dp) a b = get2 dp a b := by
    intro a b hab
    unfold cellStep
    split <;> exact get2_set2_ne dp _ hab
  refine ⟨?_, ?_⟩
  · unfold cellStep
    split <;> exact set2_shape hs _ _ _
  · intro a b ha hb hdone
    by_cases hab : a = i' + 1 ∧ b = j' + 1
    · obtain ⟨rfl, rfl⟩ := hab
      exact hval
    · have hne : a ≠ i' + 1 ∨ b ≠ j' + 1 := by
        by_cases h1 : a = i' + 1
        · exact Or.inr (fun h2 => hab ⟨h1, h2⟩)
        · exact Or.inl h1
      rw [hother a b hne]
      apply hcells a b ha hb
      rcases hdone with h0 | h0 | h0 | ⟨h0, h1⟩
      · exact Or.inl h0
      · exact Or.inr (Or.inl h0)
      · exact Or.inr (Or.inr (Or.inl h0))
      · refine Or.inr (Or.inr (Or.inr ⟨h0, ?_⟩))
        rcases hne with h2 | h2
        · exact absurd h0 h2
        · omega

theorem fillTable_inv (r h : List JSString) :
    TableInv r h (r.length + 1) 1 (fillTable r h) := by
  unfold fillTable
  -- column 0
  have hcol := forLoop_inv
    (fun k dp => Shape r.length h.length dp ∧ ∀ i, i < k → get2 dp i 0 = i)
    0 r.length (fun i dp => set2 dp i 0 i)
    (List.replicate (r.length + 1) (List.replicate (h.length + 1) 0)) (by omega)
    ⟨shape_replicate _ _, fun i hi => absurd hi (Nat.not_lt_zero i)⟩
    (by
      intro i dp _ hi ⟨hs, hc⟩
      refine ⟨set2_shape hs _ _ _, fun a ha => ?_⟩
      by_cases hai : a = i
      · subst hai
        exact get2_set2_eq hs hi (Nat.zero_le _) _
      · rw [get2_set2_ne dp _ (Or.inl hai)]
        exact hc a (by omega))
  -- row 0
  have hrow := forLoop_inv
    (fun k dp => Shape r.length h.length dp ∧ (∀ i, i ≤ r.length → get2 dp i 0 = i) ∧
      ∀ j, j < k → get2 dp 0 j = j)
    0 h.length (fun j dp => set2 dp 0 j j) _ (by omega)
    ⟨hcol.1, fun i hi => hcol.2 i (by omega), fun j hj => absurd hj (Nat.not_lt_zero j)⟩
    (by
      intro j dp _ hj ⟨hs, hc, hr⟩
      refine ⟨set2_shape hs _ _ _, fun a ha => ?_, fun b hb => ?_⟩
      · by_cases h0 : a = 0 ∧ j = 0
        · obtain ⟨rfl, rfl⟩ := h0
          exact get2_set2_eq hs (Nat.zero_le _) (Nat.zero_le _) _
        · rw [get2_set2_ne dp _ (by omega)]
          exact hc a ha
      · by_cases hbj : b = j
        · subst hbj
          exact get2_set2_eq hs (Nat.zero_le _) hj _
        · rw [get2_set2_ne dp _ (Or.inr hbj)]
          exact hr b (by omega))
  -- the nested loops
  refine forLoop_inv (fun k dp => TableInv r h k 1 dp) 1 r.length _ _ (by omega) ?_ ?_
  · obtain ⟨hs, hc, hr⟩ := hrow
    refine ⟨hs, fun i j hi hj hdone => ?_⟩
    have hij : i = 0 ∨ j = 0 := by omega
    rcases hij with rfl | rfl
    · rw [hr j (by omega), cellSpec_zero_left r h hj]
    · rw [hc i hi, cellSpec_zero_right r h hi]
  · intro i dp hi1 hi hinv
    have hin := forLoop_inv (fun k dp => TableInv r h i k dp) 1 h.length
      (fun j dp => cellStep r h i j dp) dp (by omega) hinv
      (fun j dp hj1 hj hP => cellStep_inv r h hi1 hi hj1 hj hP)
    obtain ⟨hs, hcells⟩ := hin
    refine ⟨hs, fun a b ha hb hdone => hcells a b ha hb ?_⟩
    omega

theorem fillTable_get2 (r h : List JSString) {i j : Nat} (hi : i ≤ r.length)
    (hj : j ≤ h.length) : get2 (fillTable r h) i j = cellSpec r h i j :=
  (fillTable_inv r h).2 i j hi hj (by omega)

/-- The last cell of the table is the edit distance of the two token sequences. -/
theorem fillTable_last (r h : List JSString) :
    get2 (fillTable r h) r.length h.length = lev r h := by
  rw [fillTable_get2 r h le_rfl le_rfl, cellSpec, List.take_length, List.take_length,
    lev_reverse]

theorem computeWER_edits (refText hypText : JSString) :
    (computeWER refText hypText).edits = lev (tokens refText) (tokens hypText) :=
  fillTable_last _ _

end Table

/-! ## The double quotient -/

section DoubleQuotient

theorem floorLog2Aux_spec : ∀ (fuel n : Nat), n ≤ fuel → n ≠ 0 →
    2 ^ floorLog2Aux fuel n ≤ n ∧ n < 2 ^ (floorLog2Aux fuel n + 1) := by
  intro fuel
  induction fuel with
  | zero => intro n hn h0; omega
  | succ fuel ih =>
    intro n hn h0
    rw [floorLog2Aux]
    split
    · simp; omega
    · rename_i h2
      obtain ⟨h1, h3⟩ := ih (n / 2) (by omega) (by omega)
      rw [pow_succ, pow_succ]
      constructor <;> omega

theorem floorLog2_spec {n : Nat} (h0 : n ≠ 0) :
    2 ^ floorLog2 n ≤ n ∧ n < 2 ^ (floorLog2 n + 1) :=
  floorLog2Aux_spec n n le_rfl h0

/-- The scaled quotient has exactly 53 bits before the binary point. -/
theorem divScale_range {a b : Nat} (ha : a ≠ 0) (hb : b ≠ 0) :
    2 ^ 52 * (b * 2 ^ floorLog2 a) ≤ a * 2 ^ divScale a b ∧
    a * 2 ^ divScale a b < 2 ^ 53 * (b * 2 ^ floorLog2 a) := by
  obtain ⟨ha1, ha2⟩ := floorLog2_spec ha
  obtain ⟨hb1, hb2⟩ := floorLog2_spec hb
  rw [pow_succ] at ha2 hb2
  by_cases hc : b * 2 ^ (floorLog2 a + 52) ≤ a * 2 ^ (floorLog2 b + 52)
  · have ht : divScale a b = floorLog2 b + 52 := by
      unfold divScale
      rw [if_pos hc]
    rw [ht]
    rw [pow_add, pow_add] at hc
    rw [pow_add]
    generalize 2 ^ floorLog2 a = A at *
    generalize 2 ^ floorLog2 b = B at *
    constructor
    · calc 2 ^ 52 * (b * A) = b * (A * 2 ^ 52) := by ring
        _ ≤ a * (B * 2 ^ 52) := hc
    · have h1 : a * B < A * 2 * b := by
        calc a * B ≤ a * b := Nat.mul_le_mul_left _ hb1
          _ < A * 2 * b := Nat.mul_lt_mul_of_pos_right ha2 (by omega)
      calc a * (B * 2 ^ 52) = a * B * 2 ^ 52 := by ring
        _ < A * 2 * b * 2 ^ 52 := Nat.mul_lt_mul_of_pos_right h1 (by norm_num)
        _ = 2 ^ 53 * (b * A) := by ring
  · have ht : divScale a b = floorLog2 b + 53 := by
      unfold divScale
      rw [if_neg hc]
    rw [ht]
    rw [pow_add, pow_add] at hc
    rw [pow_add]
    generalize 2 ^ floorLog2 a = A at *
    generalize 2 ^ floorLog2 b = B at *
    have hc' : a * (B * 2 ^ 52) < b * (A * 2 ^ 52) := Nat.lt_of_not_le hc
    constructor
    · have h1 : b * A ≤ B * 2 * a := by
        calc b * A ≤ B * 2 * A := Nat.mul_le_mul_right _ (Nat.le_of_lt hb2)
          _ ≤ B * 2 * a := Nat.mul_le_mul_left _ ha1
      calc 2 ^ 52 * (b * A) ≤ 2 ^ 52 * (B * 2 * a) := Nat.mul_le_mul_left _ h1
        _ = a * (B * 2 ^ 53) := by ring
    · calc a * (B * 2 ^ 53) = 2 * (a * (B * 2 ^ 52)) := by ring
        _ < 2 * (b * (A * 2 ^ 52)) := by omega
        _ = 2 ^ 53 * (b * A) := by ring

theorem roundQuot_of_dvd {n d : Nat} (hd : 0 < d) (h : d ∣ n) : roundQuot n d = n / d := by
  unfold roundQuot
  simp only [Nat.mod_eq_zero_of_dvd h]
  rw [if_pos (by omega)]

/-- Rounding to the nearest integer is off by at most one half. -/
theorem roundQuot_error (n d : Nat) (hd : 0 < d) :
    |(roundQuot n d : ℚ) * d - n| ≤ d / 2 := by
  have hdm := Nat.div_add_mod n d
  have hr := Nat.mod_lt n hd
  have hn : (n : ℚ) = d * (n / d : Nat) + (n % d : Nat) := by exact_mod_cast hdm.symm
  have hr' : ((n % d : Nat) : ℚ) < d := by exact_mod_cast hr
  have hr0 : (0 : ℚ) ≤ ((n % d : Nat) : ℚ) := Nat.cast_nonneg _
  unfold roundQuot
  simp only
  rw [abs_le]
  split
  · rename_i h1
    have h1' : (2 : ℚ) * ((n % d : Nat) : ℚ) < d := by exact_mod_cast h1
    rw [hn]
    constructor <;> linarith
  · split
    · rename_i h1 h2
      have h2' : (d : ℚ) < 2 * ((n % d : Nat) : ℚ) := by exact_mod_cast h2
      rw [hn]
      push_cast
      constructor <;> linarith
    · rename_i h1 h2
      have h3 : 2 * (n % d) = d := by omega
      have h3' : (2 : ℚ) * ((n % d : Nat) : ℚ) = d := by exact_mod_cast h3
      split
      · rw [hn]
        constructor <;> linarith
      · rw [hn]
        push_cast
        constructor <;> linarith

/-- The quotient of two doubles holding natural numbers is within a relative error of
`2^-53` of the exact quotient. -/
theorem divDouble_error (a b : Nat) (hb : 0 < b) :
    |divDouble a b - (a : ℚ) / b| ≤ (a : ℚ) / b / 2 ^ 53 := by
  by_cases ha : a = 0
  · subst ha
    rw [divDouble, if_pos rfl]
    simp
  obtain ⟨h1, h2⟩ := divScale_range ha (Nat.pos_iff_ne_zero.mp hb)
  have hdpos : 0 < b * 2 ^ floorLog2 a := Nat.mul_pos hb (pow_pos (by norm_num) _)
  have herr := roundQuot_error (a * 2 ^ divScale a b) (b * 2 ^ floorLog2 a) hdpos
  rw [divDouble, if_neg ha]
  unfold divSignificand
  generalize roundQuot (a * 2 ^ divScale a b) (b * 2 ^ floorLog2 a) = q at herr
  have h1' : (2 : ℚ) ^ 52 * ((b : ℚ) * (2 : ℚ) ^ floorLog2 a) ≤
      (a : ℚ) * (2 : ℚ) ^ divScale a b := by exact_mod_cast h1
  push_cast at herr
  have hA : (0 : ℚ) < 2 ^ floorLog2 a := by positivity
  have hT : (0 : ℚ) < 2 ^ divScale a b := by positivity
  have hbq : (0 : ℚ) < b := by exact_mod_cast hb
  generalize (2 : ℚ) ^ floorLog2 a = A at *
  generalize (2 : ℚ) ^ divScale a b = T at *
  have hTb : (0 : ℚ) < T * b := mul_pos hT hbq
  have e1 : (q : ℚ) * A / T - (a : ℚ) / b = (q * (b * A) - a * T) / (T * b) := by
    field_simp
    ring
  have e2 : (a : ℚ) / b / 2 ^ 53 = (a * T / 2 ^ 53) / (T * b) := by
    field_simp
    ring
  rw [e1, e2, abs_div, abs_of_pos hTb]
  apply div_le_div_of_nonneg_right _ (le_of_lt hTb)
  refine le_trans herr ?_
  have h53 : (2 : ℚ) ^ 53 = 2 * 2 ^ 52 := by norm_num
  rw [le_div_iff₀ (by positivity), h53]
  calc (b : ℚ) * A / 2 * (2 * 2 ^ 52) = 2 ^ 52 * (b * A) := by ring
    _ ≤ a * T := h1'

/-- The quotient of two doubles holding natural numbers is exact when the exact
quotient has a significand of 53 bits. -/
theorem divDouble_exact (a b : Nat) (hb : 0 < b) (m k j : Nat) (hm : m < 2 ^ 53)
    (hq : (a : ℚ) / b = m * 2 ^ k / 2 ^ j) : divDouble a b = (a : ℚ) / b := by
  by_cases ha : a = 0
  · subst ha
    rw [divDouble, if_pos rfl]
    simp
  obtain ⟨h1, h2⟩ := divScale_range ha (Nat.pos_iff_ne_zero.mp hb)
  have hdpos : 0 < b * 2 ^ floorLog2 a := Nat.mul_pos hb (pow_pos (by norm_num) _)
  have hbq : (0 : ℚ) < b := by exact_mod_cast hb
  -- the cross-multiplied equation, in `Nat`
  have hcross : a * 2 ^ j = b * (m * 2 ^ k) := by
    have h2j : (0 : ℚ) < 2 ^ j := by positivity
    have : (a : ℚ) * 2 ^ j = b * (m * 2 ^ k) := by
      rw [div_eq_div_iff (ne_of_gt hbq) (ne_of_gt h2j)] at hq
      linarith
    exact_mod_cast this
  rw [divDouble, if_neg ha]
  unfold divSignificand
  generalize divScale a b = t at *
  generalize floorLog2 a = la at *
  have hmain : a * 2 ^ t * 2 ^ (j + la) = b * 2 ^ la * (m * 2 ^ (k + t)) := by
    calc a * 2 ^ t * 2 ^ (j + la) = (a * 2 ^ j) * (2 ^ t * 2 ^ la) := by
          rw [pow_add]; ring
      _ = b * (m * 2 ^ k) * (2 ^ t * 2 ^ la) := by rw [hcross]
      _ = b * 2 ^ la * (m * 2 ^ (k + t)) := by rw [pow_add]; ring
  have hdvd : b * 2 ^ la ∣ a * 2 ^ t := by
    rcases Nat.lt_or_ge (k + t) (j + la) with hlt | hge
    · exfalso
      obtain ⟨e, he⟩ : ∃ e, j + la = k + t + (e + 1) := ⟨j + la - (k + t) - 1, by omega⟩
      rw [he, pow_add 2 (k + t) (e + 1), pow_succ] at hmain
      have h2k : 0 < 2 ^ (k + t) := pow_pos (by norm_num) _
      have heq : a * 2 ^ t * (2 ^ e * 2) = b * 2 ^ la * m := by
        apply Nat.eq_of_mul_eq_mul_right h2k
        calc a * 2 ^ t * (2 ^ e * 2) * 2 ^ (k + t)
            = a * 2 ^ t * (2 ^ (k + t) * (2 ^ e * 2)) := by ring
          _ = b * 2 ^ la * (m * 2 ^ (k + t)) := hmain
          _ = b * 2 ^ la * m * 2 ^ (k + t) := by ring
      have he1 : 1 ≤ 2 ^ e := Nat.one_le_two_pow
      have hlow : 2 ^ 52 * (b * 2 ^ la) * 2 ≤ a * 2 ^ t * (2 ^ e * 2) := by
        calc 2 ^ 52 * (b * 2 ^ la) * 2 ≤ a * 2 ^ t * 2 := Nat.mul_le_mul_right _ h1
          _ = a * 2 ^ t * (1 * 2) := by ring
          _ ≤ a * 2 ^ t * (2 ^ e * 2) :=
            Nat.mul_le_mul_left _ (Nat.mul_le_mul_right _ he1)
      have hup : b * 2 ^ la * m < b * 2 ^ la * 2 ^ 53 := Nat.mul_lt_mul_of_pos_left hm hdpos
      rw [heq] at hlow
      have h53 : 2 ^ 52 * (b * 2 ^ la) * 2 = b * 2 ^ la * 2 ^ 53 := by ring
      rw [h53] at hlow
      exact absurd hup (Nat.not_lt.mpr hlow)
    · obtain ⟨e, he⟩ : ∃ e, k + t = j + la + e := ⟨k + t - (j + la), by omega⟩
      rw [he, pow_add 2 (j + la) e] at hmain
      have h2j : 0 < 2 ^ (j + la) := pow_pos (by norm_num) _
      refine ⟨m * 2 ^ e, ?_⟩
      apply Nat.eq_of_mul_eq_mul_right h2j
      rw [hmain]
      ring
  rw [roundQuot_of_dvd hdpos hdvd, Nat.cast_div hdvd (by exact_mod_cast (ne_of_gt hdpos))]
  push_cast
  have hA : (2 : ℚ) ^ la ≠ 0 := by positivity
  have hT : (2 : ℚ) ^ t ≠ 0 := by positivity
  field_simp
  ring

theorem divDouble_zero (b : Nat) : divDouble 0 b = 0 := by
  simp [divDouble]

end DoubleQuotient

/-! ## The steps of `normalizeText` -/

section Normalize

theorem isWhiteSpace_iff (c : Nat) : isWhiteSpace c = true ↔
    (9 ≤ c ∧ c ≤ 13) ∨ c = 32 ∨ c = 160 ∨ c = 5760 ∨ (8192 ≤ c ∧ c ≤ 8202) ∨
    c = 8232 ∨ c = 8233 ∨ c = 8239 ∨ c = 8287 ∨ c = 12288 ∨ c = 65279 := by
  simp only [isWhiteSpace, Bool.or_eq_true, Bool.and_eq_true, decide_eq_true_eq, beq_iff_eq]
  tauto

theorem isWordChar_iff (c : Nat) : isWordChar c = true ↔
    (48 ≤ c ∧ c ≤ 57) ∨ (65 ≤ c ∧ c ≤ 90) ∨ c = 95 ∨ (97 ≤ c ∧ c ≤ 122) := by
  simp only [isWordChar, Bool.or_eq_true, Bool.and_eq_true, decide_eq_true_eq, beq_iff_eq]
  tauto

theorem isReplaced_iff (c : Nat) : isReplaced c = true ↔
    ¬(isWordChar c = true ∨ isWhiteSpace c = true ∨ c = 39) := by
  simp [isReplaced, and_assoc]

theorem isReplaced_eq_false_iff (c : Nat) : isReplaced c = false ↔
    (isWordChar c = true ∨ isWhiteSpace c = true ∨ c = 39) := by
  rw [← Bool.not_eq_true, isReplaced_iff, not_not]

theorem isNormUnit_iff (c : Nat) : isNormUnit c = true ↔
    (48 ≤ c ∧ c ≤ 57) ∨ c = 95 ∨ (97 ≤ c ∧ c ≤ 122) ∨ c = 39 ∨ c = 32 := by
  simp only [isNormUnit, Bool.or_eq_true, Bool.and_eq_true, decide_eq_true_eq, beq_iff_eq]
  tauto

theorem isWhiteSpace_space : isWhiteSpace 32 = true := by decide

theorem isWhiteSpace_lowerUnit (c : Nat) : isWhiteSpace (lowerUnit c) = isWhiteSpace c := by
  rw [Bool.eq_iff_iff, isWhiteSpace_iff, isWhiteSpace_iff]
  unfold lowerUnit
  split <;> omega

theorem lowerUnit_eq_space_iff (c : Nat) : lowerUnit c = 32 ↔ c = 32 := by
  unfold lowerUnit
  split <;> omega

/-! ### The whitespace collapse -/

theorem mem_collapseWs {c : Nat} : ∀ {s : JSString}, c ∈ collapseWs s →
    c = 32 ∨ (c ∈ s ∧ isWhiteSpace c = false) := by
  intro s
  induction s using collapseWs.induct with
  | case1 => intro h; simp [collapseWs] at h
  | case2 a ha =>
    intro h
    rw [collapseWs, if_pos ha] at h
    simp at h; exact Or.inl h
  | case3 a ha =>
    intro h
    rw [collapseWs, if_neg ha] at h
    simp at h; subst h
    exact Or.inr ⟨by simp, by simpa using ha⟩
  | case4 a d cs ha hd ih =>
    intro h
    rw [collapseWs, if_pos ha, if_pos hd] at h
    rcases ih h with h1 | ⟨h1, h2⟩
    · exact Or.inl h1
    · exact Or.inr ⟨List.mem_cons_of_mem _ h1, h2⟩
  | case5 a d cs ha hd ih =>
    intro h
    rw [collapseWs, if_pos ha, if_neg hd] at h
    rcases List.mem_cons.mp h with h0 | h0
    · exact Or.inl h0
    · rcases ih h0 with h1 | ⟨h1, h2⟩
      · exact Or.inl h1
      · exact Or.inr ⟨List.mem_cons_of_mem _ h1, h2⟩
  | case6 a d cs ha ih =>
    intro h
    rw [collapseWs, if_neg ha] at h
    rcases List.mem_cons.mp h with h0 | h0
    · subst h0
      exact Or.inr ⟨by simp, by simpa using ha⟩
    · rcases ih h0 with h1 | ⟨h1, h2⟩
      · exact Or.inl h1
      · exact Or.inr ⟨List.mem_cons_of_mem _ h1, h2⟩

theorem collapseWs_head_of_not_ws {d : Nat} (cs : JSString) (hd : isWhiteSpace d = false) :
    (collapseWs (d :: cs)).head? = some d := by
  cases cs with
  | nil => simp [collapseWs, hd]
  | cons e es => simp [collapseWs, hd]

/-- After the collapse no two whitespace code units are adjacent. -/
theorem collapseWs_chain (s : JSString) :
    List.Chain' (fun a b => ¬(isWhiteSpace a = true ∧ isWhiteSpace b = true))
      (collapseWs s) := by
  induction s using collapseWs.induct with
  | case1 => simp [collapseWs]
  | case2 a ha => rw [collapseWs, if_pos ha]; simp
  | case3 a ha => rw [collapseWs, if_neg ha]; simp
  | case4 a d cs ha hd ih => rw [collapseWs, if_pos ha, if_pos hd]; exact ih
  | case5 a d cs ha hd ih =>
    rw [collapseWs, if_pos ha, if_neg hd, List.chain'_cons']
    refine ⟨?_, ih⟩
    intro y hy
    rw [collapseWs_head_of_not_ws cs (by simpa using hd)] at hy
    simp at hy; subst hy
    intro h; exact hd h.2
  | case6 a d cs ha ih =>
    rw [collapseWs, if_neg ha, List.chain'_cons']
    exact ⟨fun y _ h => ha h.1, ih⟩

/-- The collapse leaves a text alone whose only whitespace is single spaces. -/
theorem collapseWs_fixed : ∀ (v : JSString), (∀ c ∈ v, isWhiteSpace c = true → c = 32) →
    List.Chain' (fun a b => ¬(a = 32 ∧ b = 32)) v → collapseWs v = v := by
  intro v
  induction v using collapseWs.induct with
  | case1 => intro _ _; simp [collapseWs]
  | case2 a ha =>
    intro hws _
    rw [collapseWs, if_pos ha, hws a (by simp) ha]
  | case3 a ha =>
    intro hws _
    rw [collapseWs, if_neg ha]
  | case4 a d cs ha hd ih =>
    intro hws hch
    exfalso
    rw [List.chain'_cons] at hch
    exact hch.1 ⟨hws a (by simp) ha, hws d (by simp) hd⟩
  | case5 a d cs ha hd ih =>
    intro hws hch
    rw [collapseWs, if_pos ha, if_neg hd, hws a (by simp) ha,
      ih (fun c hc => hws c (List.mem_cons_of_mem _ hc)) (List.Chain'.tail hch)]
  | case6 a d cs ha ih =>
    intro hws hch
    rw [collapseWs, if_neg ha,
      ih (fun c hc => hws c (List.mem_cons_of_mem _ hc)) (List.Chain'.tail hch)]

/-! ### Trimming -/

theorem trim_eq (s : JSString) :
    trim s = (s.dropWhile isWhiteSpace).rdropWhile isWhiteSpace := rfl

theorem trim_within (s : JSString) : trim s <:+: s := by
  rw [trim_eq]
  have h1 : trim s <+: s.dropWhile isWhiteSpace := List.rdropWhile_prefix isWhiteSpace _
  have h2 : s.dropWhile isWhiteSpace <:+ s := List.dropWhile_suffix _
  exact List.IsInfix.trans h1.isInfix h2.isInfix

theorem mem_trim {c : Nat} {s : JSString} (h : c ∈ trim s) : c ∈ s :=
  (trim_within s).subset h

theorem trim_head_not_ws (s : JSString) (c : Nat) (h : (trim s).head? = some c) :
    isWhiteSpace c = false := by
  obtain ⟨t, ht⟩ : trim s <+: s.dropWhile isWhiteSpace :=
    List.rdropWhile_prefix isWhiteSpace _
  have hd := List.head?_dropWhile_not isWhiteSpace s
  cases hts : trim s with
  | nil => rw [hts] at h; simp at h
  | cons a u =>
    rw [hts] at h ht
    simp at h; subst h
    rw [← ht] at hd
    simpa using hd

theorem trim_last_not_ws (s : JSString) (c : Nat) (h : (trim s).getLast? = some c) :
    isWhiteSpace c = false := by
  have hne : trim s ≠ [] := by
    intro h0; rw [h0] at h; simp at h
  have := List.rdropWhile_last_not isWhiteSpace (s.dropWhile isWhiteSpace) hne
  rw [List.getLast?_eq_getLast _ hne] at h
  simp at h
  rw [← h]
  simpa using this

theorem trim_fixed (v : JSString) (hhead : ∀ c, v.head? = some c → isWhiteSpace c = false)
    (hlast : ∀ c, v.getLast? = some c → isWhiteSpace c = false) : trim v = v := by
  have h1 : v.dropWhile isWhiteSpace = v := by
    cases v with
    | nil => rfl
    | cons a u =>
      have := hhead a rfl
      simp [List.dropWhile_cons, this]
  rw [trim_eq, h1, List.rdropWhile_eq_self_iff]
  intro hl
  have := hlast _ (List.getLast?_eq_getLast v hl)
  simp [this]

theorem trim_all_ws (s : JSString) (h : ∀ c ∈ s, isWhiteSpace c = true) : trim s = [] := by
  rw [trim_eq, (List.dropWhile_eq_nil_iff).mpr h]
  simp

/-! ### The whole chain -/

theorem mem_replacePunct {c : Nat} {s : JSString} (h : c ∈ replacePunct s) :
    isReplaced c = false := by
  simp only [replacePunct, List.mem_map] at h
  obtain ⟨a, _, ha⟩ := h
  by_cases hr : isReplaced a = true
  · rw [if_pos hr] at ha
    subst ha
    decide
  · rw [if_neg hr] at ha
    subst ha
    simpa using hr

/-- Only `[A-Za-z0-9_']` and the space reach `toLowerCase` in `normalizeText`. -/
theorem toLowerCase_input_ascii (s : JSString) :
    ∀ c ∈ trim (collapseWs (replacePunct s)), isWordChar c = true ∨ c = 39 ∨ c = 32 := by
  intro c hc
  rcases mem_collapseWs (mem_trim hc) with h | ⟨h1, h2⟩
  · exact Or.inr (Or.inr h)
  · have := (isReplaced_eq_false_iff c).mp (mem_replacePunct h1)
    rcases this with h3 | h3 | h3
    · exact Or.inl h3
    · rw [h2] at h3; cases h3
    · exact Or.inr (Or.inl h3)

theorem isNormUnit_lowerUnit {c : Nat} (h : isWordChar c = true ∨ c = 39 ∨ c = 32) :
    isNormUnit (lowerUnit c) = true := by
  rw [isNormUnit_iff]
  rw [isWordChar_iff] at h
  unfold lowerUnit
  split <;> omega

theorem isNormUnit_not_replaced {c : Nat} (h : isNormUnit c = true) : isReplaced c = false := by
  rw [isReplaced_eq_false_iff, isWordChar_iff, isWhiteSpace_iff]
  rw [isNormUnit_iff] at h
  omega

theorem isNormUnit_ws {c : Nat} (h : isNormUnit c = true) (hws : isWhiteSpace c = true) :
    c = 32 := by
  rw [isNormUnit_iff] at h
  rw [isWhiteSpace_iff] at hws
  omega

theorem isNormUnit_lower {c : Nat} (h : isNormUnit c = true) : lowerUnit c = c := by
  rw [isNormUnit_iff] at h
  unfold lowerUnit
  split <;> omega

/-- Every result of `normalizeText` is a canonical text. -/
theorem normalizeText_isNormalized (s : JSString) : IsNormalized (normalizeText s) := by
  unfold normalizeText toLowerCase
  refine ⟨?_, ?_, ?_, ?_⟩
  · intro c hc
    rw [List.mem_map] at hc
    obtain ⟨a, ha, rfl⟩ := hc
    exact isNormUnit_lowerUnit (toLowerCase_input_ascii s a ha)
  · rw [List.chain'_map]
    refine List.Chain'.imp ?_
      ( List.Chain'.infix (collapseWs_chain (replacePunct s)) (trim_within _))
    intro a b hab h
    rw [lowerUnit_eq_space_iff, lowerUnit_eq_space_iff] at h
    apply hab
    rw [h.1, h.2]
    exact ⟨isWhiteSpace_space, isWhiteSpace_space⟩
  · intro h
    rw [List.head?_map] at h
    cases hh : (trim (collapseWs (replacePunct s))).head? with
    | none => rw [hh] at h; simp at h
    | some a =>
      rw [hh] at h
      simp only [Option.map_some', Option.some.injEq, lowerUnit_eq_space_iff] at h
      have := trim_head_not_ws _ a hh
      rw [h, isWhiteSpace_space] at this
      cases this
  · intro h
    rw [List.getLast?_map] at h
    cases hh : (trim (collapseWs (replacePunct s))).getLast? with
    | none => rw [hh] at h; simp at h
    | some a =>
      rw [hh] at h
      simp only [Option.map_some', Option.some.injEq, lowerUnit_eq_space_iff] at h
      have := trim_last_not_ws _ a hh
      rw [h, isWhiteSpace_space] at this
      cases this

/-- A canonical text is a fixed point of `normalizeText`. -/
theorem normalizeText_of_isNormalized {v : JSString} (hv : IsNormalized v) :
    normalizeText v = v := by
  have h1 : replacePunct v = v := by
    unfold replacePunct
    conv_rhs => rw [← List.map_id v]
    apply List.map_congr_left
    intro c hc
    rw [isNormUnit_not_replaced (hv.units c hc)]
    simp
  have h2 : collapseWs v = v :=
    collapseWs_fixed v (fun c hc hws => isNormUnit_ws (hv.units c hc) hws) hv.noDouble
  have h3 : trim v = v := by
    apply trim_fixed
    · intro c hc
      have hmem : c ∈ v := List.mem_of_mem_head? hc
      by_contra hws
      have hws' : isWhiteSpace c = true := by simpa using hws
      have := isNormUnit_ws (hv.units c hmem) hws'
      subst this
      exact hv.noLead hc
    · intro c hc
      have hmem : c ∈ v := List.mem_of_mem_getLast? hc
      by_contra hws
      have hws' : isWhiteSpace c = true := by simpa using hws
      have := isNormUnit_ws (hv.units c hmem) hws'
      subst this
      exact hv.noTrail hc
  have h4 : toLowerCase v = v := by
    unfold toLowerCase
    conv_rhs => rw [← List.map_id v]
    apply List.map_congr_left
    intro c hc
    rw [isNormUnit_lower (hv.units c hc)]
    rfl
  unfold normalizeText
  rw [h1, h2, h3, h4]

/-! ### Lower-casing first -/

theorem toLowerCase_collapseWs (s : JSString) :
    toLowerCase (collapseWs s) = collapseWs (toLowerCase s) := by
  unfold toLowerCase
  induction s using collapseWs.induct with
  | case1 => simp [collapseWs]
  | case2 a ha =>
    simp only [List.map_cons, List.map_nil, collapseWs, isWhiteSpace_lowerUnit, if_pos ha]
    rfl
  | case3 a ha =>
    simp only [List.map_cons, List.map_nil, collapseWs, isWhiteSpace_lowerUnit, if_neg ha]
  | case4 a d cs ha hd ih =>
    simp only [List.map_cons, collapseWs, isWhiteSpace_lowerUnit, if_pos ha, if_pos hd]
    simpa using ih
  | case5 a d cs ha hd ih =>
    simp only [List.map_cons, collapseWs, isWhiteSpace_lowerUnit, if_pos ha, if_neg hd]
    rw [List.map_cons] at ih
    rw [ih]
    rfl
  | case6 a d cs ha ih =>
    simp only [List.map_cons, collapseWs, isWhiteSpace_lowerUnit, if_neg ha]
    rw [List.map_cons] at ih
    rw [ih]

theorem isWhiteSpace_comp_lowerUnit : isWhiteSpace ∘ lowerUnit = isWhiteSpace :=
  funext isWhiteSpace_lowerUnit

theorem toLowerCase_trim (s : JSString) : toLowerCase (trim s) = trim (toLowerCase s) := by
  unfold toLowerCase trim
  rw [List.dropWhile_map, ← List.map_reverse, List.dropWhile_map, ← List.map_reverse,
    isWhiteSpace_comp_lowerUnit]

/-- The result of `normalizeText` depends on the text only through the canonical form
of its code units. -/
theorem normalizeText_eq (s : JSString) :
    normalizeText s = trim (collapseWs (s.map canonUnit)) := by
  unfold normalizeText
  rw [toLowerCase_trim, toLowerCase_collapseWs]
  unfold toLowerCase replacePunct
  rw [List.map_map]
  rfl

theorem filter_dropWhile_ws (s : JSString) :
    (s.dropWhile isWhiteSpace).filter (fun c => !isWhiteSpace c) =
      s.filter (fun c => !isWhiteSpace c) := by
  induction s with
  | nil => rfl
  | cons a s ih =>
    by_cases ha : isWhiteSpace a = true
    · rw [List.dropWhile_cons_of_pos ha, ih, List.filter_cons_of_neg (by simp [ha])]
    · rw [List.dropWhile_cons_of_neg ha]

theorem filter_trim (s : JSString) :
    (trim s).filter (fun c => !isWhiteSpace c) = s.filter (fun c => !isWhiteSpace c) := by
  unfold trim
  rw [List.filter_reverse, filter_dropWhile_ws, List.filter_reverse, List.reverse_reverse,
    filter_dropWhile_ws]

theorem filter_collapseWs (s : JSString) :
    (collapseWs s).filter (fun c => !isWhiteSpace c) = s.filter (fun c => !isWhiteSpace c) := by
  induction s using collapseWs.induct with
  | case1 => simp [collapseWs]
  | case2 a ha => simp [collapseWs, ha, isWhiteSpace_space]
  | case3 a ha => simp [collapseWs, ha]
  | case4 a d cs ha hd ih =>
    rw [collapseWs, if_pos ha, if_pos hd, ih]
    simp [List.filter_cons, ha]
  | case5 a d cs ha hd ih =>
    rw [collapseWs, if_pos ha, if_neg hd]
    simp only [List.filter_cons, ha, isWhiteSpace_space, Bool.not_true, Bool.false_eq_true,
      if_false]
    simpa [List.filter_cons] using ih
  | case6 a d cs ha ih =>
    rw [collapseWs, if_neg ha]
    simp only [List.filter_cons] at ih ⊢
    rw [ih]

theorem canonUnit_not_ws (c : Nat) :
    (!isWhiteSpace (canonUnit c)) = (isWordChar c || c == 39) := by
  unfold canonUnit
  rw [isWhiteSpace_lowerUnit]
  by_cases hr : isReplaced c = true
  · rw [if_pos hr, isWhiteSpace_space]
    have := (isReplaced_iff c).mp hr
    simp only [not_or] at this
    simp [this.1, this.2.2]
  · rw [if_neg hr]
    have hr' := (isReplaced_eq_false_iff c).mp (by simpa using hr)
    by_cases hws : isWhiteSpace c = true
    · have h1 : isWordChar c = false := by
        rw [← Bool.not_eq_true, isWordChar_iff]
        rw [isWhiteSpace_iff] at hws
        omega
      have h2 : c ≠ 39 := by
        rw [isWhiteSpace_iff] at hws
        omega
      simp [hws, h1, h2]
    · have : isWordChar c = true ∨ c = 39 := by
        rcases hr' with h | h | h
        · exact Or.inl h
        · exact absurd h hws
        · exact Or.inr h
      rcases this with h | h
      · simp [hws, h]
      · subst h; decide

theorem canonUnit_of_kept {c : Nat} (h : (isWordChar c || c == 39) = true) :
    canonUnit c = lowerUnit c := by
  unfold canonUnit
  have : isReplaced c = false := by
    rw [isReplaced_eq_false_iff]
    simp only [Bool.or_eq_true, beq_iff_eq] at h
    tauto
  rw [this]
  rfl

/-! ### Splitting -/

theorem split_ne_nil (s : JSString) : split s ≠ [] := by
  induction s using split.induct with
  | case1 => simp [split]
  | case2 cs ih => simp [split]
  | case3 c cs hc hs ih => exact absurd hs ih
  | case4 c cs hc t ts hs ih => simp [split, hc, hs]

theorem split_cons_of_ne {c : Nat} (cs : JSString) (hc : c ≠ 32) :
    ∃ t ts, split cs = t :: ts ∧ split (c :: cs) = (c :: t) :: ts := by
  cases hs : split cs with
  | nil => exact absurd hs (split_ne_nil cs)
  | cons t ts => exact ⟨t, ts, rfl, by simp [split, hc, hs]⟩

theorem split_no_space (s : JSString) : ∀ t ∈ split s, 32 ∉ t := by
  induction s with
  | nil => intro t ht; simp [split] at ht; subst ht; simp
  | cons c cs ih =>
    intro t ht
    by_cases hc : c = 32
    · subst hc
      simp only [split, if_true, List.mem_cons] at ht
      rcases ht with rfl | ht
      · simp
      · exact ih t ht
    · obtain ⟨u, us, h1, h2⟩ := split_cons_of_ne cs hc
      rw [h2] at ht
      rw [h1] at ih
      rcases List.mem_cons.mp ht with rfl | ht
      · intro hmem
        rcases List.mem_cons.mp hmem with h | h
        · exact hc h.symm
        · exact ih u (by simp) h
      · exact ih t (List.mem_cons_of_mem _ ht)

theorem split_subset (s : JSString) : ∀ t ∈ split s, ∀ c ∈ t, c ∈ s := by
  induction s with
  | nil => intro t ht c hc; simp [split] at ht; subst ht; simp at hc
  | cons a cs ih =>
    intro t ht c hc
    by_cases ha : a = 32
    · subst ha
      simp only [split, if_true, List.mem_cons] at ht
      rcases ht with rfl | ht
      · simp at hc
      · exact List.mem_cons_of_mem _ (ih t ht c hc)
    · obtain ⟨u, us, h1, h2⟩ := split_cons_of_ne cs ha
      rw [h2] at ht
      rw [h1] at ih
      rcases List.mem_cons.mp ht with rfl | ht
      · rcases List.mem_cons.mp hc with h | h
        · rw [h]; simp
        · exact List.mem_cons_of_mem _ (ih u (by simp) c h)
      · exact List.mem_cons_of_mem _ (ih t (List.mem_cons_of_mem _ ht) c hc)

/-- With single spaces only and none at the end, every piece after the first is
non-empty, and so is the first when the text is non-empty and starts with no space. -/
theorem split_nonempty : ∀ (s : JSString), List.Chain' (fun a b => ¬(a = 32 ∧ b = 32)) s →
    s.getLast? ≠ some 32 →
    (∀ t ∈ (split s).tail, t ≠ []) ∧
    (s ≠ [] → s.head? ≠ some 32 → ∀ t ∈ split s, t ≠ []) := by
  intro s
  induction s with
  | nil => intro _ _; simp [split]
  | cons a cs ih =>
    intro hch hlast
    have hlast' : cs.getLast? ≠ some 32 := by
      intro h
      apply hlast
      cases cs with
      | nil => simp at h
      | cons b bs => rw [List.getLast?_cons_cons]; exact h
    obtain ⟨ih1, ih2⟩ := ih hch.tail hlast'
    by_cases ha : a = 32
    · subst ha
      have hcs : cs ≠ [] := by
        rintro rfl
        exact hlast rfl
      have hhead : cs.head? ≠ some 32 := by
        intro h
        cases cs with
        | nil => simp at h
        | cons b bs =>
          simp at h; subst h
          rw [List.chain'_cons] at hch
          exact hch.1 ⟨rfl, rfl⟩
      refine ⟨?_, fun _ h => absurd rfl h⟩
      simp only [split, if_true, List.tail_cons]
      exact ih2 hcs hhead
    · obtain ⟨u, us, h1, h2⟩ := split_cons_of_ne cs ha
      rw [h1] at ih1
      rw [h2]
      refine ⟨by simpa using ih1, fun _ _ t ht => ?_⟩
      rcases List.mem_cons.mp ht with rfl | ht
      · simp
      · exact ih1 t (by simpa using ht)

/-- The tokens of a canonical text are non-empty and free of whitespace. -/
theorem tokens_of_isNormalized {v : JSString} (hv : IsNormalized v) :
    ∀ t ∈ tokens v, t ≠ [] ∧ ∀ c ∈ t, isWhiteSpace c = false := by
  intro t ht
  unfold tokens at ht
  split at ht
  · simp at ht
  · rename_i hlen
    have hne : v ≠ [] := fun h => hlen (by rw [h]; rfl)
    refine ⟨(split_nonempty v hv.noDouble hv.noTrail).2 hne hv.noLead t ht, fun c hc => ?_⟩
    by_contra hws
    have hws' : isWhiteSpace c = true := by simpa using hws
    have := isNormUnit_ws (hv.units c (split_subset v t ht c hc)) hws'
    subst this
    exact split_no_space v t ht hc

end Normalize

section Scoring

theorem computeWER_N (refText hypText : JSString) :
    (computeWER refText hypText).N = (tokens refText).length := rfl

theorem computeWER_wer (refText hypText : JSString) :
    (computeWER refText hypText).wer =
      if (tokens refText).length = 0 then (if (tokens hypText).length = 0 then 0 else 1)
      else divDouble (computeWER refText hypText).edits (tokens refText).length := rfl

theorem computeWER_wer_of_pos (refText hypText : JSString)
    (hN : 0 < (tokens refText).length) :
    (computeWER refText hypText).wer =
      divDouble (computeWER refText hypText).edits (tokens refText).length := by
  rw [computeWER_wer, if_neg (by omega)]

/-- The double nearest to one third. -/
theorem divDouble_one_three : divDouble 1 3 = 6004799503160661 / 18014398509481984 := by
  have h1 : divSignificand 1 3 = 6004799503160661 := by decide
  have h2 : divScale 1 3 = 54 := by decide
  have h3 : floorLog2 1 = 0 := by decide
  rw [divDouble, if_neg (by decide), h1, h2, h3]
  norm_num

theorem oneTokenEdit_ne {r h : List JSString} (he : OneTokenEdit r h) : r ≠ h := by
  rcases he with ⟨pre, suf, x, y, hxy, rfl, rfl⟩ | ⟨pre, suf, y, rfl, rfl⟩
  · intro heq
    have := List.append_cancel_left heq
    exact hxy (List.cons.inj this).1
  · intro heq
    have := congrArg List.length heq
    simp at this

theorem oneTokenEdit_step {r h : List JSString} (he : OneTokenEdit r h) : EditStep r h := by
  rcases he with ⟨pre, suf, x, y, hxy, rfl, rfl⟩ | ⟨pre, suf, y, rfl, rfl⟩
  · exact EditStep.substitution pre suf x y hxy
  · exact EditStep.insertion pre suf y

theorem lev_of_oneTokenEdit {r h : List JSString} (he : OneTokenEdit r h) : lev r h = 1 := by
  have h1 : lev r h ≤ 1 := lev_le_align (editStep_align (oneTokenEdit_step he))
  have h0 : lev r h ≠ 0 := fun h0 => oneTokenEdit_ne he ((lev_eq_zero_iff r h).mp h0)
  omega

end Scoring

/-! ## The claims -/

/-- C1: the `edits` field returned by `computeWER` is the Levenshtein distance between
the token arrays of the two texts: a sequence of exactly `edits` single-token
insertions, deletions and substitutions turns the hypothesis tokens into the reference
tokens, and no such sequence is shorter. -/
theorem computeWER_edits_is_levenshtein (refText hypText : JSString) :
    EditSeq (tokens hypText) (tokens refText) (computeWER refText hypText).edits ∧
    ∀ n, EditSeq (tokens hypText) (tokens refText) n →
      (computeWER refText hypText).edits ≤ n := by
  rw [computeWER_edits, lev_comm]
  exact ⟨lev_editSeq _ _, fun n hn => lev_le_editSeq hn⟩

/-- C2, as stated, fails: with three reference tokens and one edit the `wer` returned
is the double nearest to one third, `6004799503160661 / 2 ^ 54`, which is not the
quotient `edits / N`. -/
theorem computeWER_wer_counterexample :
    (computeWER (js "a b c") (js "a b")).edits = 1 ∧
    (computeWER (js "a b c") (js "a b")).N = 3 ∧
    (computeWER (js "a b c") (js "a b")).wer = 6004799503160661 / 18014398509481984 ∧
    (computeWER (js "a b c") (js "a b")).wer ≠
      ((computeWER (js "a b c") (js "a b")).edits : ℚ) /
        ((computeWER (js "a b c") (js "a b")).N : ℚ) := by
  have he : (computeWER (js "a b c") (js "a b")).edits = 1 := by decide
  have hN : (tokens (js "a b c")).length = 3 := by decide
  have hw : (computeWER (js "a b c") (js "a b")).wer =
      6004799503160661 / 18014398509481984 := by
    rw [computeWER_wer_of_pos _ _ (by rw [hN]; decide), he, hN, divDouble_one_three]
  refine ⟨he, hN, hw, ?_⟩
  rw [hw, he, computeWER_N, hN]
  norm_num

/-- C2, amended: `computeWER` returns the number of reference tokens as `N`; when
`N > 0` its `wer` is the double quotient `edits / N`, never clamped: within a relative
error of `2 ^ -53` of the exact quotient, and the exact quotient whenever that has a
53-bit significand (one reference token against three different hypothesis tokens
gives 3); `wer` is 0 when both token arrays are empty, and 1 when only the reference
is empty, in which case `edits` is the number of hypothesis tokens; the empty reference
against "x y" gives `wer` 1 and `edits` 2. -/
theorem computeWER_wer_policy (refText hypText : JSString) :
    (computeWER refText hypText).N = (tokens refText).length ∧
    (0 < (tokens refText).length →
      (computeWER refText hypText).wer =
        divDouble (computeWER refText hypText).edits (tokens refText).length ∧
      |(computeWER refText hypText).wer -
          ((computeWER refText hypText).edits : ℚ) / ((tokens refText).length : ℚ)| ≤
        ((computeWER refText hypText).edits : ℚ) / ((tokens refText).length : ℚ) / 2 ^ 53 ∧
      ∀ m k j : Nat, m < 2 ^ 53 →
        ((computeWER refText hypText).edits : ℚ) / ((tokens refText).length : ℚ) =
          m * 2 ^ k / 2 ^ j →
        (computeWER refText hypText).wer =
          ((computeWER refText hypText).edits : ℚ) / ((tokens refText).length : ℚ)) ∧
    ((tokens refText).length = 0 → (tokens hypText).length = 0 →
      (computeWER refText hypText).wer = 0) ∧
    ((tokens refText).length = 0 → 0 < (tokens hypText).length →
      (computeWER refText hypText).wer = 1 ∧
      (computeWER refText hypText).edits = (tokens hypText).length) ∧
    (computeWER (js "a") (js "b c d")).wer = 3 ∧
    (computeWER (js "") (js "x y")).wer = 1 ∧
    (computeWER (js "") (js "x y")).edits = 2 ∧
    (computeWER (js "") (js "x y")).N = 0 := by
  refine ⟨rfl, ?_, ?_, ?_, ?_, ?_, by decide, by decide⟩
  · intro hN
    rw [computeWER_wer_of_pos refText hypText hN]
    exact ⟨rfl, divDouble_error _ _ hN, fun m k j hm hq => divDouble_exact _ _ hN m k j hm hq⟩
  · intro hN hM
    rw [computeWER_wer, if_pos hN, if_pos hM]
  · intro hN hM
    refine ⟨?_, ?_⟩
    · rw [computeWER_wer, if_pos hN, if_neg (by omega)]
    · rw [computeWER_edits, List.length_eq_zero.mp hN, lev_nil_left]
  · have he : (computeWER (js "a") (js "b c d")).edits = 3 := by decide
    have hN : (tokens (js "a")).length = 1 := by decide
    rw [computeWER_wer_of_pos _ _ (by rw [hN]; exact Nat.one_pos), he, hN,
      divDouble_exact 3 1 Nat.one_pos 3 0 0 (by norm_num) (by norm_num)]
    norm_num
  · have hN : (tokens (js "")).length = 0 := by decide
    have hM : ¬ (tokens (js "x y")).length = 0 := by decide
    rw [computeWER_wer, if_pos hN, if_neg hM]

/-- C3: for every text `t`, `computeWER(t, t)` has `edits` 0, and `wer` 0 when `t` has
at least one token; "the quick brown fox" against itself gives `edits` 0, `N` 4 and
`wer` 0. -/
theorem computeWER_self (t : JSString) :
    (computeWER t t).edits = 0 ∧
    (0 < (tokens t).length → (computeWER t t).wer = 0) ∧
    (computeWER (js "the quick brown fox") (js "the quick brown fox")).edits = 0 ∧
    (computeWER (js "the quick brown fox") (js "the quick brown fox")).N = 4 ∧
    (computeWER (js "the quick brown fox") (js "the quick brown fox")).wer = 0 := by
  have h0 : ∀ u : JSString, (computeWER u u).edits = 0 := fun u => by
    rw [computeWER_edits, lev_self]
  have hw : ∀ u : JSString, 0 < (tokens u).length → (computeWER u u).wer = 0 := fun u hu => by
    rw [computeWER_wer_of_pos u u hu, h0 u, divDouble_zero]
  exact ⟨h0 t, hw t, h0 _, by decide, hw _ (by decide)⟩

/-- C4: swapping reference and hypothesis never changes the edit count of
`computeWER`. -/
theorem computeWER_edits_symm (a b : JSString) :
    (computeWER a b).edits = (computeWER b a).edits := by
  rw [computeWER_edits, computeWER_edits, lev_comm]

/-- C5: the edit count of `computeWER` obeys the triangle inequality. -/
theorem computeWER_edits_triangle (a b c : JSString) :
    (computeWER a b).edits ≤ (computeWER a c).edits + (computeWER c b).edits := by
  rw [computeWER_edits, computeWER_edits, computeWER_edits]
  exact lev_triangle _ _ _

/-- C6: `normalizeText` is idempotent: normalizing a normalized text changes nothing. -/
theorem normalizeText_idempotent (s : JSString) :
    normalizeText (normalizeText s) = normalizeText s :=
  normalizeText_of_isNormalized (normalizeText_isNormalized s)

/-- C7, as stated, fails: the dotless i U+0131 is a letter whose other-case form is
`I`; it is outside `\w`, so `normalizeText` turns it into a space and nothing is left,
while `I` is kept and lower-cased: two texts that differ only in the case of a letter
give different results. -/
theorem normalizeText_case_variant_counterexample :
    List.Forall₂ (CaseOrPunctVariant otherCase) (js "ı") (js "I") ∧
    normalizeText (js "ı") = js "" ∧
    normalizeText (js "I") = js "i" ∧
    tokens (normalizeText (js "ı")) ≠ tokens (normalizeText (js "I")) := by
  refine ⟨List.Forall₂.cons (Or.inr (Or.inl (by decide))) List.Forall₂.nil, by decide,
    by decide, by decide⟩

/-- C7, amended: `normalizeText` is unchanged when letters of the text are replaced by
their other-case form, provided no letter outside ASCII is thereby exchanged with an
ASCII letter (each pair of the case table `oc` is a pair of ASCII letters or a pair of
units outside `[A-Za-z0-9_]`, apostrophe and whitespace), and when punctuation units
(neither `[A-Za-z0-9_]`, nor apostrophe, nor whitespace) are replaced by a space. -/
theorem normalizeText_case_punct_invariant (oc : Nat → Option Nat)
    (hoc : ∀ c d, oc c = some d →
      asciiOtherCase c = some d ∨ (isReplaced c = true ∧ isReplaced d = true))
    (s t : JSString) (hst : List.Forall₂ (CaseOrPunctVariant oc) s t) :
    normalizeText s = normalizeText t := by
  have hascii : ∀ c d, asciiOtherCase c = some d → canonUnit c = canonUnit d := by
    intro c d hcd
    have hc : isReplaced c = false ∧ isReplaced d = false ∧ lowerUnit c = lowerUnit d := by
      rw [isReplaced_eq_false_iff, isReplaced_eq_false_iff, isWordChar_iff, isWordChar_iff]
      unfold asciiOtherCase at hcd
      unfold lowerUnit
      split at hcd
      · simp only [Option.some.injEq] at hcd
        subst hcd
        refine ⟨by omega, by omega, ?_⟩
        split <;> split <;> omega
      · split at hcd
        · simp only [Option.some.injEq] at hcd
          subst hcd
          refine ⟨by omega, by omega, ?_⟩
          split <;> split <;> omega
        · cases hcd
    unfold canonUnit
    rw [hc.1, hc.2.1]
    exact hc.2.2
  have hunit : ∀ c d, CaseOrPunctVariant oc c d → canonUnit c = canonUnit d := by
    intro c d hcd
    rcases hcd with rfl | hcd | ⟨hr, rfl⟩
    · rfl
    · rcases hoc c d hcd with h | ⟨h1, h2⟩
      · exact hascii c d h
      · unfold canonUnit
        rw [h1, h2]
        rfl
    · unfold canonUnit
      rw [hr]
      rfl
  have hmap : s.map canonUnit = t.map canonUnit := by
    induction hst with
    | nil => rfl
    | cons hcd _ ih => rw [List.map_cons, List.map_cons, hunit _ _ hcd, ih]
  rw [normalizeText_eq, normalizeText_eq, hmap]

/-- C7, amended, at the texts of the claim: "Hello, World!" and the same text with its
capitals lowered and its punctuation spaced out are normalized alike, and both
"Hello, World!" and "hello world" yield the tokens "hello", "world". -/
theorem normalizeText_case_punct_invariant_witness :
    List.Forall₂ (CaseOrPunctVariant asciiOtherCase) (js "Hello, World!")
      (js "hello  world ") ∧
    normalizeText (js "Hello, World!") = normalizeText (js "hello  world ") ∧
    tokens (normalizeText (js "Hello, World!")) = [js "hello", js "world"] ∧
    tokens (normalizeText (js "hello world")) = [js "hello", js "world"] := by
  have hrel : List.Forall₂ (CaseOrPunctVariant asciiOtherCase) (js "Hello, World!")
      (js "hello  world ") := by
    have e1 : js "Hello, World!" =
        [72, 101, 108, 108, 111, 44, 32, 87, 111, 114, 108, 100, 33] := by decide
    have e2 : js "hello  world " =
        [104, 101, 108, 108, 111, 32, 32, 119, 111, 114, 108, 100, 32] := by decide
    rw [e1, e2]
    repeat first
      | exact List.Forall₂.nil
      | refine List.Forall₂.cons (by unfold CaseOrPunctVariant; decide) ?_
  exact ⟨hrel,
    normalizeText_case_punct_invariant asciiOtherCase (fun _ _ h => Or.inl h) _ _ hrel,
    by decide, by decide⟩

/-- C8: the token array `computeWER` derives from a normalized text has no empty token
and no token containing whitespace; a text of nothing but whitespace and punctuation
(the empty text among them) gives the empty array; "" yields no token and
"a   b\tc\n" yields "a", "b", "c". -/
theorem tokens_normalizeText (s : JSString) :
    (∀ t ∈ tokens (normalizeText s), t ≠ [] ∧ ∀ c ∈ t, isWhiteSpace c = false) ∧
    ((∀ c ∈ s, isWhiteSpace c = true ∨ isReplaced c = true) →
      tokens (normalizeText s) = []) ∧
    tokens (normalizeText (js "")) = [] ∧
    tokens (normalizeText (js "a   b\tc\n")) = [js "a", js "b", js "c"] := by
  refine ⟨tokens_of_isNormalized (normalizeText_isNormalized s), ?_, by decide, by decide⟩
  intro hs
  have hall : ∀ c ∈ collapseWs (s.map canonUnit), isWhiteSpace c = true := by
    intro c hc
    rcases mem_collapseWs hc with rfl | ⟨hmem, hws⟩
    · exact isWhiteSpace_space
    · exfalso
      rw [List.mem_map] at hmem
      obtain ⟨a, ha, rfl⟩ := hmem
      have hk := canonUnit_not_ws a
      rw [hws] at hk
      have hkept : isWordChar a = true ∨ a = 39 := by
        simpa using hk.symm
      rcases hs a ha with h | h
      · rw [isWhiteSpace_iff] at h
        rw [isWordChar_iff] at hkept
        omega
      · rw [isReplaced_iff] at h
        tauto
  rw [normalizeText_eq, trim_all_ws _ hall]
  rfl

/-- C9, as stated, fails: the word class of `normalizeText` is not Unicode-aware. The
letter "é" of "café" is replaced by a space and the token that is left is "caf". -/
theorem normalizeText_cafe_counterexample :
    replacePunct (js "café") = js "caf " ∧
    233 ∉ normalizeText (js "café") ∧
    tokens (normalizeText (js "café")) = [js "caf"] := by
  refine ⟨by decide, by decide, by decide⟩

/-- C9, amended: `normalizeText` replaces by a space exactly the code units that are
neither an ASCII word character `[A-Za-z0-9_]`, nor an apostrophe, nor whitespace: such
a unit counts as a space wherever it stands, and the units of the result other than
spaces are, in order, the lower-cased ASCII word characters and apostrophes of the
text. An apostrophe keeps "don't" one token; the "é" of "café" is replaced. -/
theorem normalizeText_replaces_outside_ascii_word (s : JSString) :
    (∀ c, isReplaced c = true ↔
      ¬((48 ≤ c ∧ c ≤ 57) ∨ (65 ≤ c ∧ c ≤ 90) ∨ c = 95 ∨ (97 ≤ c ∧ c ≤ 122) ∨ c = 39 ∨
        isWhiteSpace c = true)) ∧
    (∀ pre suf c, isReplaced c = true →
      normalizeText (pre ++ c :: suf) = normalizeText (pre ++ 32 :: suf)) ∧
    (normalizeText s).filter (fun c => c != 32) =
      (s.filter (fun c => isWordChar c || c == 39)).map lowerUnit ∧
    tokens (normalizeText (js "don't stop")) = [js "don't", js "stop"] ∧
    tokens (normalizeText (js "café au lait")) = [js "caf", js "au", js "lait"] := by
  refine ⟨?_, ?_, ?_, by decide, by decide⟩
  · intro c
    rw [isReplaced_iff, isWordChar_iff]
    tauto
  · intro pre suf c hc
    rw [normalizeText_eq, normalizeText_eq, List.map_append, List.map_append,
      List.map_cons, List.map_cons]
    have : canonUnit c = canonUnit 32 := by
      unfold canonUnit
      rw [hc]
      rfl
    rw [this]
  · have h1 : (normalizeText s).filter (fun c => c != 32) =
        (normalizeText s).filter (fun c => !isWhiteSpace c) := by
      apply List.filter_congr
      intro c hc
      have hn := (normalizeText_isNormalized s).units c hc
      by_cases hws : isWhiteSpace c = true
      · have := isNormUnit_ws hn hws
        subst this
        rfl
      · have hne : c ≠ 32 := by
          rintro rfl
          exact hws isWhiteSpace_space
        simp [hws, hne]
    rw [h1, normalizeText_eq, filter_trim, filter_collapseWs, List.filter_map]
    have h2 : ((fun c => !isWhiteSpace c) ∘ canonUnit) = fun c => isWordChar c || c == 39 :=
      funext canonUnit_not_ws
    rw [h2]
    apply List.map_congr_left
    intro c hc
    exact canonUnit_of_kept (List.mem_filter.mp hc).2

/-- C10, as stated, fails: "a b c" against "a b x" is one substitution on three
reference tokens, and the `wer` scored is the double nearest to one third,
`6004799503160661 / 2 ^ 54`, not `1 / 3`. -/
theorem finishTest_one_edit_counterexample :
    0 < (tokens (normalizeText (js "a b c"))).length ∧
    OneTokenEdit (tokens (normalizeText (js "a b c"))) (tokens (normalizeText (js "a b x"))) ∧
    (finishTest (js "a b c") (js "a b x")).edits = 1 ∧
    (finishTest (js "a b c") (js "a b x")).N = 3 ∧
    (finishTest (js "a b c") (js "a b x")).wer = 6004799503160661 / 18014398509481984 ∧
    (finishTest (js "a b c") (js "a b x")).wer ≠ 1 / 3 := by
  have he : (finishTest (js "a b c") (js "a b x")).edits = 1 := by decide
  have hN : (tokens (normalizeText (js "a b c"))).length = 3 := by decide
  have hw : (finishTest (js "a b c") (js "a b x")).wer =
      6004799503160661 / 18014398509481984 := by
    unfold finishTest at he ⊢
    rw [computeWER_wer_of_pos _ _ (by rw [hN]; decide), he, hN, divDouble_one_three]
  refine ⟨by decide,
    Or.inl ⟨[js "a", js "b"], [], js "c", js "x", by decide, by decide, by decide⟩,
    he, hN, hw, ?_⟩
  rw [hw]
  norm_num

/-- C10, amended: when the reference has `N > 0` tokens after normalization and the
tokens of the normalized hypothesis are those of the reference with one token
substituted by a different one, or with one token inserted, `finishTest` scores `edits`
1, reference word count `N`, and as `wer` the double quotient `1 / N`: within a relative
error of `2 ^ -53` of `1 / N`, and exactly `1 / N` when `N` is a power of two. -/
theorem finishTest_one_edit (referenceTranscript userText : JSString)
    (hN : 0 < (tokens (normalizeText referenceTranscript)).length)
    (hedit : OneTokenEdit (tokens (normalizeText referenceTranscript))
      (tokens (normalizeText userText))) :
    (finishTest referenceTranscript userText).edits = 1 ∧
    (finishTest referenceTranscript userText).N =
      (tokens (normalizeText referenceTranscript)).length ∧
    (finishTest referenceTranscript userText).wer =
      divDouble 1 (tokens (normalizeText referenceTranscript)).length ∧
    |(finishTest referenceTranscript userText).wer -
        1 / ((tokens (normalizeText referenceTranscript)).length : ℚ)| ≤
      1 / ((tokens (normalizeText referenceTranscript)).length : ℚ) / 2 ^ 53 ∧
    ∀ k : Nat, (tokens (normalizeText referenceTranscript)).length = 2 ^ k →
      (finishTest referenceTranscript userText).wer =
        1 / ((tokens (normalizeText referenceTranscript)).length : ℚ) := by
  have he : (finishTest referenceTranscript userText).edits = 1 := by
    unfold finishTest
    rw [computeWER_edits, lev_of_oneTokenEdit hedit]
  have hw : (finishTest referenceTranscript userText).wer =
      divDouble 1 (tokens (normalizeText referenceTranscript)).length := by
    unfold finishTest at he ⊢
    rw [computeWER_wer_of_pos _ _ hN, he]
  refine ⟨he, rfl, hw, ?_, ?_⟩
  · rw [hw]
    have := divDouble_error 1 _ hN
    simpa using this
  · intro k hk
    rw [hw]
    have := divDouble_exact 1 _ hN 1 0 k (by norm_num) (by rw [hk]; push_cast; ring)
    simpa using this

/-- C10 at the texts of the claim: "the quick brown fox" against "the quick brown cat"
gives `edits` 1, `N` 4, `wer` 1/4, and "good morning" against "good morning everyone"
gives `edits` 1, `N` 2, `wer` 1/2. -/
theorem finishTest_one_edit_witness :
    ((finishTest (js "the quick brown fox") (js "the quick brown cat")).edits = 1 ∧
      (finishTest (js "the quick brown fox") (js "the quick brown cat")).N = 4 ∧
      (finishTest (js "the quick brown fox") (js "the quick brown cat")).wer = 1 / 4) ∧
    ((finishTest (js "good morning") (js "good morning everyone")).edits = 1 ∧
      (finishTest (js "good morning") (js "good morning everyone")).N = 2 ∧
      (finishTest (js "good morning") (js "good morning everyone")).wer = 1 / 2) := by
  have h1 := finishTest_one_edit (js "the quick brown fox") (js "the quick brown cat")
    (by decide)
    (Or.inl ⟨[js "the", js "quick", js "brown"], [], js "fox", js "cat", by decide,
      by decide, by decide⟩)
  have h2 := finishTest_one_edit (js "good morning") (js "good morning everyone")
    (by decide)
    (Or.inr ⟨[js "good", js "morning"], [], js "everyone", by decide, by decide⟩)
  have n1 : (tokens (normalizeText (js "the quick brown fox"))).length = 4 := by decide
  have n2 : (tokens (normalizeText (js "good morning"))).length = 2 := by decide
  have w1 := h1.2.2.2.2 2 (by rw [n1]; norm_num)
  have w2 := h2.2.2.2.2 1 (by rw [n2]; norm_num)
  rw [n1] at h1 w1
  rw [n2] at h2 w2
  exact ⟨⟨h1.1, h1.2.1, by simpa using w1⟩, ⟨h2.1, h2.2.1, by simpa using w2⟩⟩

end Speech2Text
